import Mathlib

/-!
Shallow embedding of the `asphaleia-storage` versioned storage engine
(crates `asphaleia-storage` and the hash/codec collaborators it consumes),
together with theorems settling the specification claims.

Bytes are modelled as `List Nat`, machine timestamps as `Nat` values passed
explicitly to every operation that reads a clock, and the fallible Rust
`Result` values as `Except`/`Option`.
-/

set_option maxRecDepth 4096

instance {ε α : Type} [DecidableEq ε] [DecidableEq α] : DecidableEq (Except ε α) := fun a b =>
  match a, b with
  | .ok x, .ok y => if h : x = y then isTrue (by rw [h]) else isFalse (by simp [h])
  | .error x, .error y => if h : x = y then isTrue (by rw [h]) else isFalse (by simp [h])
  | .ok _, .error _ => isFalse (by simp)
  | .error _, .ok _ => isFalse (by simp)

/-- Strict lexicographic order on byte strings, as used by the `BTreeMap`
ordering of 32-byte digests (`Ord` on `Sha256` raw bytes). -/
def lexLt : List Nat → List Nat → Bool
  | [], [] => false
  | [], _ :: _ => true
  | _ :: _, [] => false
  | a :: as, b :: bs => if a < b then true else if b < a then false else lexLt as bs

/-- Modelled from the spec: the 32-byte SHA-256 content hash provided by
`asphaleia-crypto/src/hash.rs`, which is not under `src/`. The spec only
requires "construct from bytes, expose raw bytes, total lexicographic
ordering, equality, hashing"; the hash is idealized as an injective
(collision-free) digest whose stable byte representation is the hashed
input itself. -/
structure Sha256 where
  data : List Nat
  deriving DecidableEq, Repr

/-- Modelled from the spec: `Sha256::new(bytes)` computes the digest of
`bytes` (idealized injective digest). -/
def Sha256.new (bytes : List Nat) : Sha256 := ⟨bytes⟩

/-- Modelled from the spec: `Sha256::as_bytes` exposes the stable raw byte
representation of the digest. -/
def Sha256.as_bytes (h : Sha256) : List Nat := h.data

/-- `BTreeMap` key order on digests: lexicographic on the raw bytes. -/
def keyLt (a b : Sha256) : Bool := lexLt a.data b.data

/-- `(value.len() as u32).to_be_bytes()`: the four big-endian bytes of the
length, wrapping modulo `2^32` as the Rust `as u32` cast does. -/
def be32 (n : Nat) : List Nat :=
  [n / 2 ^ 24 % 256, n / 2 ^ 16 % 256, n / 2 ^ 8 % 256, n % 256]

/-- The `BTreeMap<Sha256, Vec<u8>>` inside `Table`, modelled as an
association list kept sorted by `keyLt` (the `BTreeMap` invariant). -/
abbrev TableMap : Type := List (Sha256 × List Nat)

/-- The `BTreeMap` sortedness invariant: keys strictly ascending. -/
def TableSorted (t : TableMap) : Prop :=
  List.Pairwise (fun a b : Sha256 × List Nat => keyLt a.1 b.1 = true) t

instance : DecidablePred TableSorted := fun t => by
  unfold TableSorted; infer_instance

/-- `Table::new` (empty map). -/
def Table.empty : TableMap := []

/-- `BTreeMap::insert(key, value)`: stores `value` under `key`, returning the
previous value if any; keeps the map sorted. -/
def Table.insert (key : Sha256) (value : List Nat) :
    TableMap → TableMap × Option (List Nat)
  | [] => ([(key, value)], none)
  | (k, v) :: rest =>
    if key = k then ((key, value) :: rest, some v)
    else if keyLt key k then ((key, value) :: (k, v) :: rest, none)
    else
      let r := Table.insert key value rest
      ((k, v) :: r.1, r.2)

/-- `BTreeMap::get(key)`. -/
def Table.get (key : Sha256) : TableMap → Option (List Nat)
  | [] => none
  | (k, v) :: rest => if key = k then some v else Table.get key rest

/-- `BTreeMap::remove(key)`: deletes the entry, returning its value. -/
def Table.remove (key : Sha256) : TableMap → TableMap × Option (List Nat)
  | [] => ([], none)
  | (k, v) :: rest =>
    if key = k then (rest, some v)
    else
      let r := Table.remove key rest
      ((k, v) :: r.1, r.2)

/-- `BTreeMap::contains_key`. -/
def Table.containsKey (key : Sha256) (t : TableMap) : Bool :=
  (Table.get key t).isSome

/-- `BTreeMap::len`. -/
def Table.len (t : TableMap) : Nat := t.length

/-- `BTreeMap::pop_first`. -/
def Table.popFirst : TableMap → TableMap × Option (Sha256 × List Nat)
  | [] => ([], none)
  | e :: rest => (rest, some e)

/-- `BTreeMap::pop_last`. -/
def Table.popLast (t : TableMap) : TableMap × Option (Sha256 × List Nat) :=
  (t.dropLast, t.getLast?)

/-- `BTreeMap::append(&mut other)`: moves every entry of `other` into `self`
(the moved values win on key collisions); `other` is left empty. -/
def Table.appendMap (t other : TableMap) : TableMap :=
  other.foldl (fun acc e => (Table.insert e.1 e.2 acc).1) t

/-- `Table::to_bytes`: per entry in map (key) order, the 32 raw key bytes,
the big-endian 32-bit value length, then the value bytes. -/
def Table.toBytes : TableMap → List Nat
  | [] => []
  | (k, v) :: rest => k.data ++ be32 v.length ++ v ++ Table.toBytes rest

/-- Modelled from the spec: the byte-compression codec of
`asphaleia-storage/src/compression.rs`, which is not under `src/`. The spec
requires two fallible operation pairs, `compress(bytes, level)` /
`decompress(bytes)` and the dictionary-trained variants; the codec is kept
abstract as a parameter, so theorems that depend on codec behaviour state
their assumptions (such as the round-trip law) explicitly. -/
structure Codec where
  compress : List Nat → Int → Option (List Nat)
  decompress : List Nat → Option (List Nat)
  compressWithDict : List Nat → Int → List Nat → Option (List Nat)
  decompressWithDict : List Nat → List Nat → Option (List Nat)

/-- The round-trip law for the plain mode:
`decompress(compress(v, level)) == v`. -/
def Codec.RoundTrip (c : Codec) : Prop :=
  ∀ v lvl, ∃ cv, c.compress v lvl = some cv ∧ c.decompress cv = some v

/-- The round-trip law for the dictionary mode:
`decompress_with_dict(compress_with_dict(v, level, d), d) == v`. -/
def Codec.RoundTripDict (c : Codec) : Prop :=
  ∀ v lvl d, ∃ cv, c.compressWithDict v lvl d = some cv ∧
    c.decompressWithDict cv d = some v

/-- The identity codec: trivially satisfies both round-trip laws; used to
evaluate the model on concrete inputs. -/
def idCodec : Codec where
  compress := fun v _ => some v
  decompress := fun v => some v
  compressWithDict := fun v _ _ => some v
  decompressWithDict := fun v _ => some v

/-- `FragmentError` (error payload strings dropped). -/
inductive FragmentError where
  | compressionError
  | decompressionError
  | serializationError
  deriving DecidableEq, Repr

/-- `Metadata` of a `Fragment`; `SystemTime` modelled as `Nat`. -/
structure Metadata where
  creation_date : Nat
  last_modified : Nat
  compression : String
  compression_level : Int
  compression_dict : Option (List Nat)
  size : Nat
  deriving DecidableEq, Repr

/-- A length-prefixed byte-list encoding, standing in for a `bincode` field. -/
def encodeList (l : List Nat) : List Nat := l.length :: l

/-- String field encoding (character code points, length-prefixed). -/
def encodeString (s : String) : List Nat := encodeList (s.data.map Char.toNat)

/-- Optional-bytes field encoding. -/
def encodeOpt : Option (List Nat) → List Nat
  | none => [0]
  | some d => 1 :: encodeList d

/-- `i32` field encoding (sign flag then magnitude). -/
def encodeInt (i : Int) : List Nat :=
  if i < 0 then [0, i.natAbs] else [1, i.natAbs]

/-- `bincode::serialize` of a `Metadata` value: a stable flat encoding of
its six fields. -/
def Metadata.serialize (m : Metadata) : List Nat :=
  [m.creation_date, m.last_modified] ++ encodeString m.compression ++
    encodeInt m.compression_level ++ encodeOpt m.compression_dict ++ [m.size]

/-- `Fragment`: a `Table`, the content hash of its serialization, and
`Metadata`. -/
structure Fragment where
  table : TableMap
  hash : Sha256
  metadata : Metadata
  deriving DecidableEq, Repr

/-- `Fragment::new(compression, compression_level, compression_dict)` at
clock reading `now`. -/
def Fragment.new (compression : String) (compression_level : Int)
    (compression_dict : Option (List Nat)) (now : Nat) : Fragment :=
  { table := Table.empty
    hash := Sha256.new (Table.toBytes Table.empty)
    metadata :=
      { creation_date := now
        last_modified := now
        compression := compression
        compression_level := compression_level
        compression_dict := compression_dict
        size := 0 } }

/-- `Fragment::to_bytes`: table serialization, raw hash bytes, serialized
metadata. -/
def Fragment.toBytes (f : Fragment) : List Nat :=
  Table.toBytes f.table ++ f.hash.data ++ f.metadata.serialize

/-- The compression mode selection shared by all `Fragment` operations:
dictionary mode when `compression_dict` is set, plain mode otherwise. -/
def compressOf (c : Codec) (m : Metadata) (v : List Nat) : Option (List Nat) :=
  match m.compression_dict with
  | some dict => c.compressWithDict v m.compression_level dict
  | none => c.compress v m.compression_level

/-- The decompression mode selection shared by all `Fragment` operations. -/
def decompOf (c : Codec) (m : Metadata) (v : List Nat) : Option (List Nat) :=
  match m.compression_dict with
  | some dict => c.decompressWithDict v dict
  | none => c.decompress v

/-- `Fragment::update_hash` (recompute the content hash and touch
`last_modified`), fused with the `metadata.size` refresh that every
mutating operation performs right after it. -/
def Fragment.refresh (now : Nat) (f : Fragment) (t : TableMap) : Fragment :=
  { f with
    table := t
    hash := Sha256.new (Table.toBytes t)
    metadata := { f.metadata with last_modified := now, size := Table.len t } }

/-- `Fragment::insert(value, key)`: compress under the policy, store, refresh
hash/size, return the previous compressed slot. -/
def Fragment.insert (c : Codec) (now : Nat) (f : Fragment) (value : List Nat)
    (key : Sha256) : Except FragmentError (Fragment × Option (List Nat)) :=
  match compressOf c f.metadata value with
  | none => .error .compressionError
  | some compressed =>
    let r := Table.insert key compressed f.table
    .ok (Fragment.refresh now f r.1, r.2)

/-- `Fragment::get(key)`: look up and transparently decompress. -/
def Fragment.get (c : Codec) (f : Fragment) (key : Sha256) :
    Except FragmentError (Option (List Nat)) :=
  match Table.get key f.table with
  | none => .ok none
  | some compressed =>
    match decompOf c f.metadata compressed with
    | none => .error .decompressionError
    | some plain => .ok (some plain)

/-- Outcome of `Fragment::remove`: either the Rust return value, or the
`expect` panic raised when decompression of the removed bytes fails. -/
inductive RemoveOutcome where
  | ok (value : Option (List Nat))
  | panicked
  deriving DecidableEq, Repr

/-- `Fragment::remove(key)`: remove the entry, refresh hash/size, then
decompress the removed bytes, panicking (`expect`) on failure. The first
component is the state of `self` when the call returns or unwinds. -/
def Fragment.remove (c : Codec) (now : Nat) (f : Fragment) (key : Sha256) :
    Fragment × RemoveOutcome :=
  let r := Table.remove key f.table
  let f2 := Fragment.refresh now f r.1
  match r.2 with
  | none => (f2, .ok none)
  | some compressed =>
    match decompOf c f.metadata compressed with
    | none => (f2, .panicked)
    | some plain => (f2, .ok (some plain))

/-- `Fragment::clear`. -/
def Fragment.clear (now : Nat) (f : Fragment) : Fragment :=
  Fragment.refresh now f []

/-- `Fragment::pop_first`: pop, refresh hash/size, then decompress the
popped value (a decompression failure is returned as an error, but the
mutation has already happened). -/
def Fragment.popFirst (c : Codec) (now : Nat) (f : Fragment) :
    Fragment × Except FragmentError (Option (Sha256 × List Nat)) :=
  let r := Table.popFirst f.table
  let f2 := Fragment.refresh now f r.1
  match r.2 with
  | none => (f2, .ok none)
  | some (k, compressed) =>
    match decompOf c f.metadata compressed with
    | none => (f2, .error .decompressionError)
    | some plain => (f2, .ok (some (k, plain)))

/-- `Fragment::pop_last`. -/
def Fragment.popLast (c : Codec) (now : Nat) (f : Fragment) :
    Fragment × Except FragmentError (Option (Sha256 × List Nat)) :=
  let r := Table.popLast f.table
  let f2 := Fragment.refresh now f r.1
  match r.2 with
  | none => (f2, .ok none)
  | some (k, compressed) =>
    match decompOf c f.metadata compressed with
    | none => (f2, .error .decompressionError)
    | some plain => (f2, .ok (some (k, plain)))

/-- `Fragment::append(&mut other)`: drain `other`'s table into `self`'s and
refresh `self`'s hash/size (`other` is returned drained, its own hash and
size left stale, exactly as in the source). -/
def Fragment.appendFrom (now : Nat) (f other : Fragment) : Fragment × Fragment :=
  (Fragment.refresh now f (Table.appendMap f.table other.table),
    { other with table := [] })

/-- `Fragment::len`. -/
def Fragment.len (f : Fragment) : Nat := Table.len f.table

/-- `Version { creation_date, version, fragment }` (`u64` fields as `Nat`). -/
structure Version where
  creation_date : Nat
  version : Nat
  fragment : Fragment
  deriving DecidableEq, Repr

/-- `Version::new(fragment)` at clock reading `now` (starts at number 1). -/
def Version.new (now : Nat) (fragment : Fragment) : Version :=
  { creation_date := now, version := 1, fragment := fragment }

/-- `VersionControl { versions, max_versions }`. -/
structure VersionControl where
  versions : List Version
  max_versions : Option Nat
  deriving DecidableEq, Repr

/-- `VersionControl::genesis_version()`: version 0 holding an empty Fragment
whose compression label is the literal `"zstd  "` of the source. -/
def VersionControl.genesis (now : Nat) : Version :=
  { creation_date := now, version := 0, fragment := Fragment.new "zstd  " 3 none now }

/-- `VersionControl::new(max_versions)`. -/
def VersionControl.new (now : Nat) (max_versions : Option Nat) : VersionControl :=
  { versions := [VersionControl.genesis now], max_versions := max_versions }

/-- The retention loop `while versions.len() > max { versions.remove(0) }`:
drop oldest entries from the front until the bound holds. -/
def trimFront (max_versions : Option Nat) (l : List Version) : List Version :=
  match max_versions with
  | none => l
  | some m => l.drop (l.length - m)

/-- `VersionControl::add_version(fragment)`: append a Version numbered
`previous.version + 1` (via clone-and-increment; `Version::new` when the
list is empty), then apply retention trimming. -/
def VersionControl.add_version (now : Nat) (fragment : Fragment)
    (vc : VersionControl) : VersionControl :=
  let new_version :=
    match vc.versions.getLast? with
    | some last => { creation_date := now, version := last.version + 1, fragment := fragment }
    | none => Version.new now fragment
  { vc with versions := trimFront vc.max_versions (vc.versions ++ [new_version]) }

/-- `VersionControl::get_version(version)`: first Version with that number. -/
def VersionControl.get_version (version : Nat) (vc : VersionControl) : Option Version :=
  vc.versions.find? (fun v => v.version = version)

/-- `VersionControl::get_latest_version()`. -/
def VersionControl.get_latest_version (vc : VersionControl) : Option Version :=
  vc.versions.getLast?

/-- Helper for `rollback`: find the first Version numbered `n`, truncate the
list just after it, and return the truncated list with that Version's
fragment. -/
def rollbackAux (n : Nat) : List Version → Option (List Version × Fragment)
  | [] => none
  | v :: rest =>
    if v.version = n then some ([v], v.fragment)
    else (rollbackAux n rest).map (fun r => (v :: r.1, r.2))

/-- `VersionControl::rollback(version)`: on success truncate after the found
Version and return its fragment; otherwise leave the log unchanged. -/
def VersionControl.rollback (version : Nat) (vc : VersionControl) :
    Option Fragment × VersionControl :=
  match rollbackAux version vc.versions with
  | some r => (some r.2, { vc with versions := r.1 })
  | none => (none, vc)

/-- `VersionControl::get_history()` (oldest first). -/
def VersionControl.get_history (vc : VersionControl) : List Version := vc.versions

/-- `VersionControl::get_version_count()`. -/
def VersionControl.get_version_count (vc : VersionControl) : Nat := vc.versions.length

/-- `VersionControl::clear_history()`: retain only the latest Version. -/
def VersionControl.clear_history (vc : VersionControl) : VersionControl :=
  match vc.versions.getLast? with
  | some latest => { vc with versions := [latest] }
  | none => vc

/-- `VersionControl::set_max_versions(max_versions)`: update the bound and
trim oldest entries until it holds. -/
def VersionControl.set_max_versions (max_versions : Option Nat)
    (vc : VersionControl) : VersionControl :=
  { versions := trimFront max_versions vc.versions, max_versions := max_versions }

/-- `BackupMetadata` (`SystemTime` as `Nat`). -/
structure BackupMetadata where
  creation_date : Nat
  fragment_count : Nat
  total_size : Nat
  version_count : Nat
  compression_level : Option Nat
  max_versions : Option Nat
  deriving DecidableEq, Repr

/-- `Backup { metadata, version_control, hash }`. -/
structure Backup where
  metadata : BackupMetadata
  version_control : VersionControl
  hash : Sha256
  deriving DecidableEq, Repr

/-- `Backup::new(fragment, max_versions)`: a fresh VersionLog with the
fragment appended on the genesis Version, metadata with both counts set to
the literal 1, and the content hash of the fragment. -/
def Backup.new (now : Nat) (fragment : Fragment) (max_versions : Option Nat) : Backup :=
  let version_control :=
    VersionControl.add_version now fragment (VersionControl.new now max_versions)
  { metadata :=
      { creation_date := now
        fragment_count := 1
        total_size := Fragment.len fragment
        version_count := 1
        compression_level := none
        max_versions := max_versions }
    version_control := version_control
    hash := Sha256.new fragment.toBytes }

/-- `Backup::update_hash`: recompute the hash from the latest Version's
fragment (no-op when the log is empty). -/
def Backup.update_hash (b : Backup) : Backup :=
  match b.version_control.get_latest_version with
  | some latest => { b with hash := Sha256.new latest.fragment.toBytes }
  | none => b

/-- `Backup::add_version(fragment)`: append to the log, refresh both counts,
accumulate `total_size`, recompute the hash. -/
def Backup.add_version (now : Nat) (fragment : Fragment) (b : Backup) : Backup :=
  let vc := VersionControl.add_version now fragment b.version_control
  Backup.update_hash
    { b with
      version_control := vc
      metadata :=
        { b.metadata with
          fragment_count := vc.get_version_count
          total_size := b.metadata.total_size + Fragment.len fragment
          version_count := vc.get_version_count } }

/-- `Backup::rollback(version)`: delegate to the log; on success refresh the
counts, set `total_size` to the returned fragment's length, recompute the
hash. -/
def Backup.rollback (version : Nat) (b : Backup) : Option Fragment × Backup :=
  let r := VersionControl.rollback version b.version_control
  match r.1 with
  | some fragment =>
    (some fragment,
      Backup.update_hash
        { b with
          version_control := r.2
          metadata :=
            { b.metadata with
              fragment_count := r.2.get_version_count
              total_size := Fragment.len fragment
              version_count := r.2.get_version_count } })
  | none => (none, { b with version_control := r.2 })

/-- `Backup::get_latest_version()`: the latest Version's fragment. -/
def Backup.get_latest_version (b : Backup) : Option Fragment :=
  (b.version_control.get_latest_version).map (fun v => v.fragment)

/-- `Backup::set_max_versions`. -/
def Backup.set_max_versions (max_versions : Option Nat) (b : Backup) : Backup :=
  { b with
    version_control := VersionControl.set_max_versions max_versions b.version_control
    metadata := { b.metadata with max_versions := max_versions } }

/-- `Backup::get_max_versions`. -/
def Backup.get_max_versions (b : Backup) : Option Nat :=
  b.version_control.max_versions

/-- `Backup::clear_history`. -/
def Backup.clear_history (b : Backup) : Backup :=
  let vc := b.version_control.clear_history
  match vc.get_latest_version with
  | some latest =>
    { b with
      version_control := vc
      metadata :=
        { b.metadata with
          fragment_count := 1
          total_size := Fragment.len latest.fragment
          version_count := 1 } }
  | none => { b with version_control := vc }

/-- A flat stable encoding of a `Version`, standing in for its `bincode`
serialization inside `versions.bin`. -/
def Version.serialize (v : Version) : List Nat :=
  [v.creation_date, v.version] ++ encodeList v.fragment.toBytes

/-- A flat stable encoding of a `VersionControl`, standing in for
`bincode::serialize(&self.version_control)`. -/
def VersionControl.serialize (vc : VersionControl) : List Nat :=
  vc.versions.length :: (vc.versions.map Version.serialize).flatten ++
    encodeOpt (vc.max_versions.map (fun m => [m]))

/-- The two files written by `Backup::save_to_disk`: the JSON value put in
`metadata.json` and the compressed bytes put in `versions.bin`. -/
structure SavedFiles where
  metadataJson : BackupMetadata
  versionsBin : List Nat
  deriving DecidableEq, Repr

/-- `BackupError` (payloads dropped). -/
inductive BackupError where
  | ioError
  | serializationError
  | deserializationError
  | fragmentError
  | noVersionsFound
  deriving DecidableEq, Repr

/-- `Backup::save_to_disk(path, level)`: write `metadata.json` from the
current metadata, then compress the serialized log at `level` (default 3)
into `versions.bin`, recording the chosen level into the in-memory
metadata only after `metadata.json` has already been written. -/
def Backup.save_to_disk (c : Codec) (b : Backup) (level : Option Nat) :
    Except BackupError (Backup × SavedFiles) :=
  let written := b.metadata
  let level_compression := level.getD 3
  match c.compress b.version_control.serialize (Int.ofNat level_compression) with
  | none => .error .ioError
  | some compressed =>
    .ok
      ({ b with metadata := { b.metadata with compression_level := some level_compression } },
        { metadataJson := written, versionsBin := compressed })

/-- `CacheEntry { fragment, last_accessed }` (`Instant` as `Nat`). -/
structure CacheEntry where
  fragment : Fragment
  last_accessed : Nat
  deriving DecidableEq, Repr

/-- `EvictionStrategy`. -/
inductive EvictionStrategy where
  | leastRecentlyUsed
  | firstInFirstOut
  deriving DecidableEq, Repr

/-- `CacheConfig { max_size, ttl, eviction_strategy }` (`Duration` as `Nat`
seconds). -/
structure CacheConfig where
  max_size : Nat
  ttl : Nat
  eviction_strategy : EvictionStrategy
  deriving DecidableEq, Repr

/-- `CacheConfig::default()`: 1 GiB entries, 300 s, LRU. -/
def CacheConfig.default : CacheConfig :=
  { max_size := 1024 * 1024 * 1024, ttl := 300,
    eviction_strategy := .leastRecentlyUsed }

/-- The `HashMap<Sha256, CacheEntry>`, modelled as an association list whose
list order stands in for the map's (arbitrary) iteration order. -/
abbrev CacheMap : Type := List (Sha256 × CacheEntry)

/-- `HashMap::get` on the model. -/
def CacheMap.lookup (k : Sha256) : CacheMap → Option CacheEntry
  | [] => none
  | e :: rest => if k = e.1 then some e.2 else CacheMap.lookup k rest

/-- `HashMap::insert`: replace in place on an existing key, otherwise add. -/
def CacheMap.store (k : Sha256) (v : CacheEntry) : CacheMap → CacheMap
  | [] => [(k, v)]
  | e :: rest =>
    if k = e.1 then (k, v) :: rest else e :: CacheMap.store k v rest

/-- `HashMap::remove` (the removed entry's value). -/
def CacheMap.erase (k : Sha256) : CacheMap → CacheMap
  | [] => []
  | e :: rest => if k = e.1 then rest else e :: CacheMap.erase k rest

/-- `CacheError` (payload strings dropped). -/
inductive CacheError where
  | insertionError
  | backupLoadError
  deriving DecidableEq, Repr

/-- `CacheManager { cache, config }`. -/
structure CacheManager where
  cache : CacheMap
  config : CacheConfig
  deriving DecidableEq, Repr

/-- `CacheManager::new(config)`. -/
def CacheManager.new (config : CacheConfig) : CacheManager :=
  { cache := [], config := config }

/-- The cache manager with its map replaced (configuration kept). -/
def CacheManager.withMap (cm : CacheManager) (l : CacheMap) : CacheManager :=
  { cm with cache := l }

/-- `CacheManager::get(key)`: on a hit, touch `last_accessed` and return the
fragment. -/
def CacheManager.get (now : Nat) (key : Sha256) (cm : CacheManager) :
    Option Fragment × CacheManager :=
  match CacheMap.lookup key cm.cache with
  | some entry =>
    (some entry.fragment,
      { cm with cache := CacheMap.store key { entry with last_accessed := now } cm.cache })
  | none => (none, cm)

/-- The accumulator loop of
`min_by_key(|(_, entry)| entry.last_accessed)` over iteration order. -/
def lruFold : Option (Sha256 × CacheEntry) → CacheMap → Option (Sha256 × CacheEntry)
  | acc, [] => acc
  | none, e :: rest => lruFold (some e) rest
  | some q, e :: rest =>
    lruFold (if e.2.last_accessed < q.2.last_accessed then some e else some q) rest

/-- `min_by_key(|(_, entry)| entry.last_accessed)`: the key of the first
entry (in iteration order) with minimal `last_accessed`. -/
def lruKey (l : CacheMap) : Option Sha256 :=
  (lruFold none l).map (fun e => e.1)

/-- `CacheManager::evict_lru`. -/
def CacheManager.evict_lru (cm : CacheManager) : Except CacheError CacheManager :=
  match lruKey cm.cache with
  | some oldest_key => .ok { cm with cache := CacheMap.erase oldest_key cm.cache }
  | none => .error .insertionError

/-- `CacheManager::evict_fifo`: remove the first key in iteration order. -/
def CacheManager.evict_fifo (cm : CacheManager) : Except CacheError CacheManager :=
  match cm.cache with
  | [] => .error .insertionError
  | e :: _ => .ok { cm with cache := CacheMap.erase e.1 cm.cache }

/-- `CacheManager::evict`: dispatch on the configured strategy. -/
def CacheManager.evict (cm : CacheManager) : Except CacheError CacheManager :=
  match cm.config.eviction_strategy with
  | .leastRecentlyUsed => cm.evict_lru
  | .firstInFirstOut => cm.evict_fifo

/-- `CacheManager::insert(fragment)`: key on the content hash of the
fragment's serialization; evict one entry first when at capacity; on any
error the cache is unchanged. -/
def CacheManager.insert (now : Nat) (fragment : Fragment) (cm : CacheManager) :
    Except CacheError Unit × CacheManager :=
  let key := Sha256.new fragment.toBytes
  let entry : CacheEntry := { fragment := fragment, last_accessed := now }
  if cm.cache.length ≥ cm.config.max_size then
    match cm.evict with
    | .error e => (.error e, cm)
    | .ok cm2 => (.ok (), { cm2 with cache := CacheMap.store key entry cm2.cache })
  else (.ok (), { cm with cache := CacheMap.store key entry cm.cache })

/-- `CacheManager::clear`. -/
def CacheManager.clear (cm : CacheManager) : CacheManager :=
  { cm with cache := [] }

/-- `CacheManager::evict_expired`: retain entries with
`now - last_accessed < ttl`. -/
def CacheManager.evict_expired (now : Nat) (cm : CacheManager) : CacheManager :=
  { cm with cache := cm.cache.filter (fun e => now - e.2.last_accessed < cm.config.ttl) }

/-- `CacheManager::load_from_backup`: insert the backup's latest fragment,
if any. -/
def CacheManager.load_from_backup (now : Nat) (backup : Backup) (cm : CacheManager) :
    Except CacheError Unit × CacheManager :=
  match backup.get_latest_version with
  | some fragment => CacheManager.insert now fragment cm
  | none => (.ok (), cm)

/-- `StorageError` (payloads dropped except the wrapped fragment error). -/
inductive StorageError where
  | io
  | compression
  | decompression
  | keyNotFound
  | versionNotFound
  | backupError (e : BackupError)
  | fragmentError (e : FragmentError)
  deriving DecidableEq, Repr

/-- `StorageIndex { backup, cache, version_control }`. -/
structure StorageIndex where
  backup : Backup
  cache : CacheManager
  version_control : VersionControl
  deriving DecidableEq, Repr

/-- `StorageIndex::new(cache_config, max_versions)`. -/
def StorageIndex.new (now : Nat) (cache_config : CacheConfig)
    (max_versions : Option Nat) : StorageIndex :=
  let fragment := Fragment.new "zstd" 3 none now
  { backup := Backup.new now fragment max_versions
    cache := CacheManager.new cache_config
    version_control := VersionControl.new now max_versions }

/-- `StorageIndex::insert(value, key)`: clone the latest fragment, insert
into it, best-effort cache install, append to the Backup's log and to the
shadow log. -/
def StorageIndex.insert (c : Codec) (now : Nat) (st : StorageIndex)
    (value : List Nat) (key : Option Sha256) :
    Except StorageError (Option (List Nat)) × StorageIndex :=
  match st.backup.get_latest_version with
  | none => (.error .versionNotFound, st)
  | some fragment =>
    let key := key.getD (Sha256.new value)
    match Fragment.insert c now fragment value key with
    | .error e => (.error (.fragmentError e), st)
    | .ok (fragment2, result) =>
      let cache2 := (CacheManager.insert now fragment2 st.cache).2
      let backup2 := Backup.add_version now fragment2 st.backup
      let shadow2 := VersionControl.add_version now fragment2 st.version_control
      (.ok result, { backup := backup2, cache := cache2, version_control := shadow2 })

/-- `StorageIndex::get(key)`: probe the cache with the entry key; on a miss
fetch the latest fragment from the Backup, install it in the cache, and
read from it. -/
def StorageIndex.get (c : Codec) (now : Nat) (st : StorageIndex) (key : Sha256) :
    Except StorageError (List Nat) × StorageIndex :=
  match CacheManager.get now key st.cache with
  | (some fragment, cache2) =>
    let r :=
      match Fragment.get c fragment key with
      | .error e => .error (.fragmentError e)
      | .ok none => .error .keyNotFound
      | .ok (some v) => .ok v
    (r, { st with cache := cache2 })
  | (none, cache2) =>
    match st.backup.get_latest_version with
    | none => (.error .versionNotFound, { st with cache := cache2 })
    | some fragment =>
      let cache3 := (CacheManager.insert now fragment cache2).2
      let r :=
        match Fragment.get c fragment key with
        | .error e => .error (.fragmentError e)
        | .ok none => .error .keyNotFound
        | .ok (some v) => .ok v
      (r, { st with cache := cache3 })

/-- `StorageIndex::remove(key)`: clone the latest fragment, remove from it
(`KeyNotFound` when absent — the Rust `ok_or` path, which only applies the
mutation to the clone), install in the cache, append to both logs. A panic
of `Fragment::remove` surfaces as `none`. -/
def StorageIndex.remove (c : Codec) (now : Nat) (st : StorageIndex) (key : Sha256) :
    Option (Except StorageError (List Nat) × StorageIndex) :=
  match st.backup.get_latest_version with
  | none => some (.error .versionNotFound, st)
  | some fragment =>
    match Fragment.remove c now fragment key with
    | (_, .panicked) => none
    | (_, .ok none) => some (.error .keyNotFound, st)
    | (fragment2, .ok (some result)) =>
      let cache2 := (CacheManager.insert now fragment2 st.cache).2
      let backup2 := Backup.add_version now fragment2 st.backup
      let shadow2 := VersionControl.add_version now fragment2 st.version_control
      some (.ok result, { backup := backup2, cache := cache2, version_control := shadow2 })

/-- `StorageIndex::create_new_version()`: append a clone of the latest
fragment to the Backup's log only. -/
def StorageIndex.create_new_version (now : Nat) (st : StorageIndex) :
    Except StorageError Unit × StorageIndex :=
  match st.backup.get_latest_version with
  | none => (.error .versionNotFound, st)
  | some fragment =>
    (.ok (), { st with backup := Backup.add_version now fragment st.backup })

/-- `StorageIndex::rollback(version)`: roll the Backup back, clear the cache
(before the missing-version check), then install the fragment and roll the
shadow log back. -/
def StorageIndex.rollback (now : Nat) (st : StorageIndex) (version : Nat) :
    Except StorageError Fragment × StorageIndex :=
  let r := Backup.rollback version st.backup
  let cache2 := st.cache.clear
  match r.1 with
  | none => (.error .versionNotFound, { st with backup := r.2, cache := cache2 })
  | some fragment =>
    let cache3 := (CacheManager.insert now fragment cache2).2
    let shadow2 := (VersionControl.rollback version st.version_control).2
    (.ok fragment, { backup := r.2, cache := cache3, version_control := shadow2 })

/-- `StorageIndex::get_version_history()`: the shadow log's fragments,
oldest first. -/
def StorageIndex.get_version_history (st : StorageIndex) : List Fragment :=
  st.version_control.get_history.map (fun v => v.fragment)

/-- `StorageIndex::clear_cache`. -/
def StorageIndex.clear_cache (st : StorageIndex) : StorageIndex :=
  { st with cache := st.cache.clear }

/-- `StorageIndex::set_max_versions`: forwarded to the Backup and the shadow
log. -/
def StorageIndex.set_max_versions (max_versions : Option Nat) (st : StorageIndex) :
    StorageIndex :=
  { st with
    backup := Backup.set_max_versions max_versions st.backup
    version_control := VersionControl.set_max_versions max_versions st.version_control }

/-- `StorageIndex::get_max_versions`. -/
def StorageIndex.get_max_versions (st : StorageIndex) : Option Nat :=
  st.backup.get_max_versions

/-- `StorageIndex::clear_history`: forwarded to the Backup and the shadow
log. -/
def StorageIndex.clear_history (st : StorageIndex) : StorageIndex :=
  { st with
    backup := st.backup.clear_history
    version_control := st.version_control.clear_history }

/-- Concrete scenario: a fresh index (default cache config, no retention
bound), at clock 0 throughout. -/
def exIndex0 : StorageIndex := StorageIndex.new 0 CacheConfig.default none

/-- Concrete scenario: after `insert([1], None)`. -/
def exIndex1 : StorageIndex := (StorageIndex.insert idCodec 0 exIndex0 [1] none).2

/-- The latest Fragment after the first insert. -/
def exFragment1 : Fragment :=
  (Backup.get_latest_version exIndex1.backup).getD (Fragment.new "zstd" 3 none 0)

/-- An entry key chosen to collide with the cache key of `exFragment1`
(the content hash of its serialization). -/
def exStaleKey : Sha256 := Sha256.new exFragment1.toBytes

/-- Concrete scenario: after a second insert `insert([2], Some(exStaleKey))`. -/
def exIndex2 : StorageIndex :=
  (StorageIndex.insert idCodec 0 exIndex1 [2] (some exStaleKey)).2

/-- Concrete scenario: `exIndex1` then `create_new_version()`. -/
def exIndex3 : StorageIndex := (StorageIndex.create_new_version 0 exIndex1).2

/-- Concrete scenario: `exIndex3` then `insert([2], None)`. -/
def exIndex4 : StorageIndex := (StorageIndex.insert idCodec 0 exIndex3 [2] none).2

/-- Concrete scenario: `exIndex4` then `rollback(2)`. -/
def exIndex5 : StorageIndex := (StorageIndex.rollback 0 exIndex4 2).2

/-- Concrete scenario: a fresh Backup on a fresh empty Fragment. -/
def exBackup : Backup := Backup.new 0 (Fragment.new "zstd" 3 none 0) none

/-- The successful non-iterator mutations of a Fragment named by the spec:
`insert`, `remove`, `clear`, `pop_first`, `pop_last`, `append`. -/
inductive FragMutation where
  | insertOp (value : List Nat) (key : Sha256)
  | removeOp (key : Sha256)
  | clearOp
  | popFirstOp
  | popLastOp
  | appendOp (other : Fragment)
  deriving Repr

/-- Apply a mutation to a Fragment at clock `now`; `some` is the state of
the mutated receiver when the operation completed without a compression /
decompression failure or panic. -/
def applyMutation (c : Codec) (now : Nat) (m : FragMutation) (f : Fragment) :
    Option Fragment :=
  match m with
  | .insertOp value key =>
    match Fragment.insert c now f value key with
    | .ok r => some r.1
    | .error _ => none
  | .removeOp key =>
    match Fragment.remove c now f key with
    | (f2, .ok _) => some f2
    | (_, .panicked) => none
  | .clearOp => some (Fragment.clear now f)
  | .popFirstOp =>
    match Fragment.popFirst c now f with
    | (f2, .ok _) => some f2
    | (_, .error _) => none
  | .popLastOp =>
    match Fragment.popLast c now f with
    | (f2, .ok _) => some f2
    | (_, .error _) => none
  | .appendOp other => some (Fragment.appendFrom now f other).1

/-- A codec that fails to decompress anything: exhibits the panic branch of
`Fragment::remove` on concrete input. -/
def badCodec : Codec where
  compress := fun v _ => some v
  decompress := fun _ => none
  compressWithDict := fun v _ _ => some v
  decompressWithDict := fun _ _ => none

/-- A concrete Fragment holding one entry whose stored bytes `[9]` cannot be
decompressed by `badCodec`. -/
def exBadFragment : Fragment :=
  { table := [(⟨[5]⟩, [9])], hash := ⟨[0]⟩, metadata := ⟨0, 0, "zstd", 3, none, 1⟩ }

/-- The successful result of saving the fresh Backup at level 5. -/
def exSavedResult : Backup × SavedFiles :=
  ((Backup.save_to_disk idCodec exBackup (some 5)).toOption).getD
    (exBackup, { metadataJson := exBackup.metadata, versionsBin := [] })

/-- The two logs agree on the latest Fragment (what §9 calls the redundancy
of the shadow log). -/
def ShadowAgrees (st : StorageIndex) : Prop :=
  Backup.get_latest_version st.backup =
    (st.version_control.get_latest_version).map (fun v => v.fragment)

/-- The two logs carry the same retention bound (maintained by `new` and
`set_max_versions`, which configure both). -/
def MaxAligned (st : StorageIndex) : Prop :=
  st.backup.version_control.max_versions = st.version_control.max_versions

/-- A retention bound is positive when set (the claim's `max_versions ≥ 1`). -/
def MaxPos (m : Option Nat) : Prop := ∀ k, m = some k → 1 ≤ k

/-- The VersionControl states reachable through the public constructors and
mutators, with every configured retention bound positive. -/
inductive VCReachable : VersionControl → Prop where
  | base (now : Nat) (max_versions : Option Nat) :
      MaxPos max_versions → VCReachable (VersionControl.new now max_versions)
  | add (vc : VersionControl) (now : Nat) (f : Fragment) :
      VCReachable vc → VCReachable (VersionControl.add_version now f vc)
  | roll (vc : VersionControl) (n : Nat) :
      VCReachable vc → VCReachable (VersionControl.rollback n vc).2
  | clear (vc : VersionControl) :
      VCReachable vc → VCReachable vc.clear_history
  | setMax (vc : VersionControl) (max_versions : Option Nat) :
      MaxPos max_versions → VCReachable vc →
      VCReachable (VersionControl.set_max_versions max_versions vc)

/-- The VersionLog invariant: at least one Version, strictly increasing
version numbers oldest-first, length within the (positive) bound. -/
def VCInv (vc : VersionControl) : Prop :=
  vc.versions ≠ [] ∧
  List.Pairwise (fun a b : Version => a.version < b.version) vc.versions ∧
  (∀ m, vc.max_versions = some m → vc.versions.length ≤ m) ∧
  MaxPos vc.max_versions

/-- A concrete two-entry cache at capacity 2 with LRU strategy; the second
entry is the least recently used one. -/
def exCacheConfig : CacheConfig :=
  { max_size := 2
    ttl := 300
    eviction_strategy := .leastRecentlyUsed }

/-- The concrete cache itself: entry `[2]` is the least recently used. -/
def exCache : CacheManager :=
  { cache := [(⟨[1]⟩, ⟨Fragment.new "zstd" 3 none 0, 8⟩), (⟨[2]⟩, ⟨Fragment.new "zstd" 3 none 1, 4⟩)]
    config := exCacheConfig }

/-- The same capacity-2 configuration with the FIFO strategy. -/
def exCacheFifoConfig : CacheConfig :=
  { max_size := 2
    ttl := 300
    eviction_strategy := .firstInFirstOut }

/-- The two-entry cache at capacity, configured with FIFO eviction. -/
def exCacheFifo : CacheManager :=
  { cache := [(⟨[1]⟩, ⟨Fragment.new "zstd" 3 none 0, 8⟩), (⟨[2]⟩, ⟨Fragment.new "zstd" 3 none 1, 4⟩)]
    config := exCacheFifoConfig }

/-- A fresh entry key distinct from every cache key in the scenario. -/
def exKey7 : Sha256 := ⟨[7]⟩

/-- Concrete scenario: `insert([1], Some(exKey7))` on the fresh index. -/
def exIndex6 : StorageIndex :=
  (StorageIndex.insert idCodec 0 exIndex0 [1] (some exKey7)).2

theorem lexLt_irrefl (l : List Nat) : lexLt l l = false := by
  induction l with
  | nil => rfl
  | cons a as ih => simp [lexLt, ih]

theorem lexLt_asymm : ∀ {a b : List Nat}, lexLt a b = true → lexLt b a = false
  | [], [], h => by simp [lexLt] at h
  | [], _ :: _, _ => by simp [lexLt]
  | _ :: _, [], h => by simp [lexLt] at h
  | a :: as, b :: bs, h => by
    by_cases hab : a < b
    · have hba : ¬ b < a := Nat.lt_asymm hab
      simp [lexLt, hba, hab]
    · by_cases hba : b < a
      · simp [lexLt, hab, hba] at h
      · have := lexLt_asymm (a := as) (b := bs) (by simpa [lexLt, hab, hba] using h)
        simp [lexLt, hab, hba, this]

theorem lexLt_total : ∀ {a b : List Nat}, a ≠ b → lexLt a b = true ∨ lexLt b a = true
  | [], [], h => absurd rfl h
  | [], _ :: _, _ => Or.inl (by simp [lexLt])
  | _ :: _, [], _ => Or.inr (by simp [lexLt])
  | a :: as, b :: bs, h => by
    by_cases hab : a < b
    · exact Or.inl (by simp [lexLt, hab])
    · by_cases hba : b < a
      · exact Or.inr (by simp [lexLt, hba, Nat.lt_asymm hba])
      · have heq : a = b := Nat.le_antisymm (Nat.not_lt.mp hba) (Nat.not_lt.mp hab)
        subst heq
        have hne : as ≠ bs := fun hc => h (by rw [hc])
        rcases lexLt_total hne with h1 | h1
        · exact Or.inl (by simp [lexLt, h1])
        · exact Or.inr (by simp [lexLt, h1])

theorem lexLt_trans :
    ∀ {a b c : List Nat}, lexLt a b = true → lexLt b c = true → lexLt a c = true
  | [], _, _ :: _, _, _ => by simp [lexLt]
  | [], [], _, h, _ => by simp [lexLt] at h
  | [], _ :: _, [], _, h2 => by simp [lexLt] at h2
  | _ :: _, [], _, h, _ => by simp [lexLt] at h
  | _ :: _, _ :: _, [], _, h2 => by simp [lexLt] at h2
  | a :: as, b :: bs, c :: cs, h, h2 => by
    by_cases hab : a < b
    · by_cases hbc : b < c
      · simp [lexLt, Nat.lt_trans hab hbc]
      · by_cases hcb : c < b
        · simp [lexLt, hbc, hcb] at h2
        · have : b = c := Nat.le_antisymm (Nat.not_lt.mp hcb) (Nat.not_lt.mp hbc)
          subst this
          simp [lexLt, hab]
    · by_cases hba : b < a
      · simp [lexLt, hab, hba] at h
      · have : a = b := Nat.le_antisymm (Nat.not_lt.mp hba) (Nat.not_lt.mp hab)
        subst this
        by_cases hbc : a < c
        · simp [lexLt, hbc]
        · by_cases hcb : c < a
          · simp [lexLt, hbc, hcb] at h2
          · have : a = c := Nat.le_antisymm (Nat.not_lt.mp hcb) (Nat.not_lt.mp hbc)
            subst this
            have h1 : lexLt as bs = true := by simpa [lexLt, hab, hba] using h
            have h3 : lexLt bs cs = true := by simpa [lexLt, hbc, hcb] using h2
            simp [lexLt, hab, hba, lexLt_trans h1 h3]

theorem keyLt_irrefl (a : Sha256) : keyLt a a = false := lexLt_irrefl a.data

theorem keyLt_asymm {a b : Sha256} (h : keyLt a b = true) : keyLt b a = false :=
  lexLt_asymm h

theorem keyLt_total {a b : Sha256} (h : a ≠ b) : keyLt a b = true ∨ keyLt b a = true :=
  lexLt_total (fun hc => h (by cases a; cases b; simpa using hc))

theorem keyLt_trans {a b c : Sha256} (h1 : keyLt a b = true) (h2 : keyLt b c = true) :
    keyLt a c = true := lexLt_trans h1 h2

theorem keyLt_ne {a b : Sha256} (h : keyLt a b = true) : a ≠ b := by
  intro hc; subst hc; simp [keyLt_irrefl] at h

theorem Table.get_some_mem {key : Sha256} {v : List Nat} :
    ∀ {t : TableMap}, Table.get key t = some v → ∃ p ∈ t, p.1 = key
  | [], h => by simp [Table.get] at h
  | (k, w) :: rest, h => by
    by_cases hk : key = k
    · exact ⟨(k, w), List.mem_cons_self _ _, hk.symm⟩
    · obtain ⟨p, hp, hpk⟩ := Table.get_some_mem (t := rest) (by simpa [Table.get, hk] using h)
      exact ⟨p, List.mem_cons_of_mem _ hp, hpk⟩

theorem Table.get_none_of_forall_ne {key : Sha256} :
    ∀ {t : TableMap}, (∀ p ∈ t, p.1 ≠ key) → Table.get key t = none
  | [], _ => rfl
  | (k, w) :: rest, h => by
    have hk : key ≠ k := fun hc => (h (k, w) (List.mem_cons_self _ _)) (hc ▸ rfl)
    simpa [Table.get, hk] using
      Table.get_none_of_forall_ne (t := rest) (fun p hp => h p (List.mem_cons_of_mem _ hp))

theorem Table.head_not_in_tail {k : Sha256} {v : List Nat} {rest : TableMap}
    (hs : TableSorted ((k, v) :: rest)) : Table.get k rest = none := by
  have hlt : ∀ p ∈ rest, keyLt k p.1 = true := by
    have := (List.pairwise_cons.mp hs).1
    intro p hp; exact this p hp
  exact Table.get_none_of_forall_ne (fun p hp => (keyLt_ne (hlt p hp)).symm)

theorem TableSorted.tail {e : Sha256 × List Nat} {rest : TableMap}
    (hs : TableSorted (e :: rest)) : TableSorted rest :=
  (List.pairwise_cons.mp hs).2

/-- Two sorted tables with the same lookups are the same list: the map
content determines the sorted entry sequence. -/
theorem Table.sorted_ext :
    ∀ {t1 t2 : TableMap}, TableSorted t1 → TableSorted t2 →
      (∀ k, Table.get k t1 = Table.get k t2) → t1 = t2
  | [], [], _, _, _ => rfl
  | [], (k2, v2) :: r2, _, _, hext => by
    have := (hext k2).symm
    simp [Table.get] at this
  | (k1, v1) :: r1, [], _, _, hext => by
    have := hext k1
    simp [Table.get] at this
  | (k1, v1) :: r1, (k2, v2) :: r2, hs1, hs2, hext => by
    have hg1 : Table.get k1 ((k2, v2) :: r2) = some v1 := by
      have := hext k1; simpa [Table.get] using this.symm
    have hg2 : Table.get k2 ((k1, v1) :: r1) = some v2 := by
      have := hext k2; simpa [Table.get] using this
    have hkeq : k1 = k2 := by
      by_contra hne
      have h12 : Table.get k1 r2 = some v1 := by simpa [Table.get, hne] using hg1
      have h21 : Table.get k2 r1 = some v2 := by
        have hne2 : k2 ≠ k1 := fun hc => hne hc.symm
        simpa [Table.get, hne2] using hg2
      obtain ⟨p, hp, hpk⟩ := Table.get_some_mem h12
      obtain ⟨q, hq, hqk⟩ := Table.get_some_mem h21
      have hlt1 : keyLt k2 p.1 = true := (List.pairwise_cons.mp hs2).1 p hp
      have hlt2 : keyLt k1 q.1 = true := (List.pairwise_cons.mp hs1).1 q hq
      rw [hpk] at hlt1; rw [hqk] at hlt2
      exact absurd hlt2 (by simp [keyLt_asymm hlt1])
    subst hkeq
    have hveq : v1 = v2 := by
      have := hext k1; simpa [Table.get] using this
    subst hveq
    have htails : ∀ k, Table.get k r1 = Table.get k r2 := by
      intro k
      by_cases hk : k = k1
      · subst hk
        rw [Table.head_not_in_tail hs1, Table.head_not_in_tail hs2]
      · have := hext k; simpa [Table.get, hk] using this
    rw [Table.sorted_ext hs1.tail hs2.tail htails]

theorem Table.insert_mem_structure {key : Sha256} {value : List Nat} :
    ∀ {t : TableMap} {p : Sha256 × List Nat},
      p ∈ (Table.insert key value t).1 → p = (key, value) ∨ p ∈ t
  | [], p, hp => by
    simp [Table.insert] at hp; exact Or.inl hp
  | (k, v) :: rest, p, hp => by
    by_cases hk : key = k
    · simp [Table.insert, hk] at hp
      rcases hp with hp | hp
      · exact Or.inl (by simp [hp, hk])
      · exact Or.inr (List.mem_cons_of_mem _ hp)
    · by_cases hlt : keyLt key k = true
      · simp [Table.insert, hk, hlt] at hp
        rcases hp with hp | hp | hp
        · exact Or.inl (by simp [hp])
        · exact Or.inr (by simp [hp])
        · exact Or.inr (List.mem_cons_of_mem _ hp)
      · simp [Table.insert, hk, hlt] at hp
        rcases hp with hp | hp
        · exact Or.inr (by simp [hp])
        · rcases Table.insert_mem_structure (t := rest) hp with h | h
          · exact Or.inl h
          · exact Or.inr (List.mem_cons_of_mem _ h)

/-- `Table::insert` keeps the map sorted. -/
theorem Table.insert_sorted {key : Sha256} {value : List Nat} :
    ∀ {t : TableMap}, TableSorted t → TableSorted (Table.insert key value t).1
  | [], _ => by simp [Table.insert, TableSorted]
  | (k, v) :: rest, hs => by
    by_cases hk : key = k
    · subst hk
      simp only [Table.insert, if_pos rfl]
      exact List.pairwise_cons.mpr ⟨(List.pairwise_cons.mp hs).1, hs.tail⟩
    · by_cases hlt : keyLt key k = true
      · simp only [Table.insert, if_neg hk, if_pos hlt]
        refine List.pairwise_cons.mpr ⟨?_, hs⟩
        intro p hp
        rcases List.mem_cons.mp hp with hp | hp
        · simp [hp, hlt]
        · exact keyLt_trans hlt ((List.pairwise_cons.mp hs).1 p hp)
      · simp only [Table.insert, if_neg hk, if_neg hlt]
        refine List.pairwise_cons.mpr ⟨?_, Table.insert_sorted hs.tail⟩
        intro p hp
        rcases Table.insert_mem_structure hp with hp | hp
        · have hkk : keyLt k key = true := by
            rcases keyLt_total (fun hc => hk hc.symm) with h | h
            · exact h
            · exact absurd h hlt
          simp [hp, hkk]
        · exact (List.pairwise_cons.mp hs).1 p hp

/-- Looking up the key just inserted yields the new value. -/
theorem Table.get_insert_self {key : Sha256} {value : List Nat} :
    ∀ (t : TableMap), Table.get key (Table.insert key value t).1 = some value
  | [] => by simp [Table.insert, Table.get]
  | (k, v) :: rest => by
    by_cases hk : key = k
    · simp [Table.insert, hk, Table.get]
    · by_cases hlt : keyLt key k = true
      · simp [Table.insert, hk, hlt, Table.get]
      · simpa [Table.insert, hk, hlt, Table.get] using Table.get_insert_self rest

/-- The option returned by `Table::remove` is the lookup of the key. -/
theorem Table.remove_snd_eq_get (key : Sha256) :
    ∀ (t : TableMap), (Table.remove key t).2 = Table.get key t
  | [] => rfl
  | (k, v) :: rest => by
    by_cases hk : key = k
    · simp [Table.remove, Table.get, hk]
    · simpa [Table.remove, Table.get, hk] using Table.remove_snd_eq_get key rest

/-- After removing a key from a sorted table, the key is gone. -/
theorem Table.get_remove_none {key : Sha256} :
    ∀ {t : TableMap}, TableSorted t → Table.get key (Table.remove key t).1 = none
  | [], _ => rfl
  | (k, v) :: rest, hs => by
    by_cases hk : key = k
    · subst hk
      simpa [Table.remove] using Table.head_not_in_tail hs
    · simpa [Table.remove, Table.get, hk] using Table.get_remove_none hs.tail

/-- C9. For every Table (under the `BTreeMap` sortedness invariant),
`to_bytes()` is the concatenation, over entries in ascending lexicographic
key order, of the raw key bytes, the big-endian 32-bit value length and the
value bytes; and it is a deterministic function of the map contents: two
sorted tables with identical lookups serialize to identical bytes (indeed
they are the same entry sequence), and `Table::insert` preserves the
ascending order. -/
theorem C9_table_to_bytes :
    (∀ t : TableMap,
      Table.toBytes t = (t.map (fun e => e.1.data ++ be32 e.2.length ++ e.2)).flatten) ∧
    (∀ t1 t2 : TableMap, TableSorted t1 → TableSorted t2 →
      (∀ k, Table.get k t1 = Table.get k t2) → Table.toBytes t1 = Table.toBytes t2) ∧
    (∀ (key : Sha256) (value : List Nat) (t : TableMap), TableSorted t →
      TableSorted (Table.insert key value t).1) := by
  refine ⟨?_, ?_, ?_⟩
  · intro t
    induction t with
    | nil => rfl
    | cons e rest ih => simp [Table.toBytes, ih, List.append_assoc]
  · intro t1 t2 hs1 hs2 hext
    rw [Table.sorted_ext hs1 hs2 hext]
  · intro key value t hs
    exact Table.insert_sorted hs

/-- Witness for C9: the serialization equation, determinism and order
preservation evaluated on concrete sorted two-entry tables. -/
theorem C9_table_to_bytes_witness :
    Table.toBytes [(⟨[1]⟩, [5]), (⟨[2]⟩, [6])] =
      ([((⟨[1]⟩ : Sha256), [5]), (⟨[2]⟩, [6])].map
        (fun e => e.1.data ++ be32 e.2.length ++ e.2)).flatten ∧
    Table.toBytes [(⟨[1]⟩, [5]), (⟨[2]⟩, [6])] =
      Table.toBytes [(⟨[1]⟩, [5]), (⟨[2]⟩, [6])] ∧
    TableSorted (Table.insert ⟨[2]⟩ [6] [(⟨[1]⟩, [5])]).1 :=
  ⟨C9_table_to_bytes.1 _,
    C9_table_to_bytes.2.1 [(⟨[1]⟩, [5]), (⟨[2]⟩, [6])] [(⟨[1]⟩, [5]), (⟨[2]⟩, [6])]
      (by decide) (by decide) (fun _ => rfl),
    C9_table_to_bytes.2.2 ⟨[2]⟩ [6] [(⟨[1]⟩, [5])] (by decide)⟩

theorem Fragment.refresh_hash (now : Nat) (f : Fragment) (t : TableMap) :
    (Fragment.refresh now f t).hash = Sha256.new (Table.toBytes t) := rfl

/-- C5. After every successful non-iterator mutation (`insert`, `remove`,
`clear`, `pop_first`, `pop_last`, `append`) of a Fragment, its hash is the
SHA-256 of its table's serialization and `metadata.size` is the number of
entries in the table; the mutation stamps `last_modified` with the current
clock, so across successive mutations under a non-decreasing clock
`last_modified` is non-decreasing. -/
theorem C5_fragment_invariants (c : Codec) (now : Nat) (m : FragMutation)
    (f f2 : Fragment) (h : applyMutation c now m f = some f2) :
    f2.hash = Sha256.new (Table.toBytes f2.table) ∧
    f2.metadata.size = Table.len f2.table ∧
    f2.metadata.last_modified = now ∧
    (f.metadata.last_modified ≤ now →
      f.metadata.last_modified ≤ f2.metadata.last_modified) := by
  have hr : ∃ t, f2 = Fragment.refresh now f t := by
    cases m with
    | insertOp value key =>
      simp only [applyMutation, Fragment.insert] at h
      rcases hc : compressOf c f.metadata value with _ | cv
      · rw [hc] at h; simp at h
      · rw [hc] at h
        simp at h
        exact ⟨_, h.symm⟩
    | removeOp key =>
      simp only [applyMutation, Fragment.remove] at h
      rcases hrem : (Table.remove key f.table).2 with _ | cv
      · rw [hrem] at h
        simp at h
        exact ⟨_, h.symm⟩
      · rcases hd : decompOf c f.metadata cv with _ | plain
        · rw [hrem] at h
          simp [hd] at h
        · rw [hrem] at h
          simp [hd] at h
          exact ⟨_, h.symm⟩
    | clearOp =>
      simp only [applyMutation, Fragment.clear] at h
      exact ⟨_, (Option.some_inj.mp h).symm⟩
    | popFirstOp =>
      simp only [applyMutation, Fragment.popFirst] at h
      rcases hpop : (Table.popFirst f.table).2 with _ | e
      · rw [hpop] at h
        simp at h
        exact ⟨_, h.symm⟩
      · rcases e with ⟨k, cv⟩
        rcases hd : decompOf c f.metadata cv with _ | plain
        · rw [hpop] at h
          simp [hd] at h
        · rw [hpop] at h
          simp [hd] at h
          exact ⟨_, h.symm⟩
    | popLastOp =>
      simp only [applyMutation, Fragment.popLast] at h
      rcases hpop : (Table.popLast f.table).2 with _ | e
      · rw [hpop] at h
        simp at h
        exact ⟨_, h.symm⟩
      · rcases e with ⟨k, cv⟩
        rcases hd : decompOf c f.metadata cv with _ | plain
        · rw [hpop] at h
          simp [hd] at h
        · rw [hpop] at h
          simp [hd] at h
          exact ⟨_, h.symm⟩
    | appendOp other =>
      simp only [applyMutation, Fragment.appendFrom] at h
      exact ⟨_, (Option.some_inj.mp h).symm⟩
  obtain ⟨t, ht⟩ := hr
  subst ht
  refine ⟨rfl, rfl, rfl, ?_⟩
  intro hle
  simpa [Fragment.refresh] using hle

/-- Witness for C5: a concrete insert at clock 5 on a fragment created at
clock 0. -/
theorem C5_fragment_invariants_witness :
    ∃ f2, applyMutation idCodec 5 (FragMutation.insertOp [9] ⟨[3]⟩)
        (Fragment.new "zstd" 3 none 0) = some f2 ∧
      f2.hash = Sha256.new (Table.toBytes f2.table) ∧
      f2.metadata.size = Table.len f2.table ∧
      f2.metadata.last_modified = 5 ∧
      ((Fragment.new "zstd" 3 none 0).metadata.last_modified ≤ 5 →
        (Fragment.new "zstd" 3 none 0).metadata.last_modified ≤
          f2.metadata.last_modified) :=
  ⟨_, rfl, C5_fragment_invariants idCodec 5 (FragMutation.insertOp [9] ⟨[3]⟩)
    (Fragment.new "zstd" 3 none 0) _ rfl⟩

/-- C10. `Fragment::remove` on a present key always removes the entry and
refreshes the hash, size and `last_modified` first; it then returns the
decompressed plaintext when the stored bytes decompress (its failure branch
is then unreachable), but panics via `expect` — after the mutation has
already happened — when they do not, whereas `Fragment::get` on the same
key reports the failure as a `DecompressionError` value instead of
panicking. -/
theorem C10_remove_panics (c : Codec) (now : Nat) (f : Fragment) (key : Sha256)
    (cv : List Nat) (hs : TableSorted f.table)
    (hget : Table.get key f.table = some cv) :
    (Fragment.remove c now f key).2 =
      (match decompOf c f.metadata cv with
        | some plain => RemoveOutcome.ok (some plain)
        | none => RemoveOutcome.panicked) ∧
    Table.get key (Fragment.remove c now f key).1.table = none ∧
    (Fragment.remove c now f key).1.hash =
      Sha256.new (Table.toBytes (Fragment.remove c now f key).1.table) ∧
    (Fragment.remove c now f key).1.metadata.size =
      Table.len (Fragment.remove c now f key).1.table ∧
    (Fragment.remove c now f key).1.metadata.last_modified = now ∧
    Fragment.get c f key =
      (match decompOf c f.metadata cv with
        | some plain => Except.ok (some plain)
        | none => Except.error FragmentError.decompressionError) := by
  have hrem : (Table.remove key f.table).2 = some cv := by
    rw [Table.remove_snd_eq_get, hget]
  refine ⟨?_, ?_, ?_, ?_, ?_, ?_⟩
  · simp only [Fragment.remove, hrem]
    rcases hd : decompOf c f.metadata cv with _ | plain <;> simp [hd]
  · simp only [Fragment.remove, hrem]
    rcases hd : decompOf c f.metadata cv with _ | plain <;>
      simpa [hd, Fragment.refresh] using Table.get_remove_none hs
  · simp only [Fragment.remove, hrem]
    rcases hd : decompOf c f.metadata cv with _ | plain <;> simp [hd, Fragment.refresh]
  · simp only [Fragment.remove, hrem]
    rcases hd : decompOf c f.metadata cv with _ | plain <;>
      simp [hd, Fragment.refresh, Table.len]
  · simp only [Fragment.remove, hrem]
    rcases hd : decompOf c f.metadata cv with _ | plain <;> simp [hd, Fragment.refresh]
  · simp only [Fragment.get, hget]
    rcases hd : decompOf c f.metadata cv with _ | plain <;> simp [hd]

/-- Witness for C10: under `badCodec` the concrete removal panics after the
entry is removed and the hash refreshed, while `get` reports the error as a
value. -/
theorem C10_remove_panics_witness :
    (Fragment.remove badCodec 7 exBadFragment ⟨[5]⟩).2 =
      (match decompOf badCodec exBadFragment.metadata [9] with
        | some plain => RemoveOutcome.ok (some plain)
        | none => RemoveOutcome.panicked) ∧
    Table.get ⟨[5]⟩ (Fragment.remove badCodec 7 exBadFragment ⟨[5]⟩).1.table = none ∧
    (Fragment.remove badCodec 7 exBadFragment ⟨[5]⟩).1.hash =
      Sha256.new (Table.toBytes (Fragment.remove badCodec 7 exBadFragment ⟨[5]⟩).1.table) ∧
    (Fragment.remove badCodec 7 exBadFragment ⟨[5]⟩).1.metadata.size =
      Table.len (Fragment.remove badCodec 7 exBadFragment ⟨[5]⟩).1.table ∧
    (Fragment.remove badCodec 7 exBadFragment ⟨[5]⟩).1.metadata.last_modified = 7 ∧
    Fragment.get badCodec exBadFragment ⟨[5]⟩ =
      (match decompOf badCodec exBadFragment.metadata [9] with
        | some plain => Except.ok (some plain)
        | none => Except.error FragmentError.decompressionError) :=
  C10_remove_panics badCodec 7 exBadFragment ⟨[5]⟩ [9] (by decide) rfl

/-- C4 counterexample. For the concrete `Backup::new(Fragment::new("zstd",
3, None), None)` the metadata records `fragment_count == version_count == 1`
while the VersionLog's `get_version_count()` is 2 (genesis plus the appended
fragment), refuting the claimed equality with `get_version_count()`. -/
theorem C4_backup_new_counterexample :
    exBackup.metadata.fragment_count = 1 ∧
    exBackup.metadata.version_count = 1 ∧
    exBackup.version_control.get_version_count = 2 ∧
    ¬ (exBackup.metadata.fragment_count = exBackup.version_control.get_version_count ∧
        exBackup.metadata.version_count = exBackup.version_control.get_version_count) := by
  refine ⟨rfl, rfl, rfl, ?_⟩
  decide

/-- C4 as amended. `Backup::new(f, max_versions)` seeds the VersionLog with
`f` (as Version 1) appended on the genesis Version, subject to retention
trimming; the metadata's `fragment_count` and `version_count` are the
literal constant 1 — not the log's `get_version_count()`, which is 2 —
`total_size` is `f.len()`, and the hash is the SHA-256 of `f.to_bytes()`. -/
theorem C4_backup_new_amended (now : Nat) (f : Fragment) (max_versions : Option Nat) :
    (Backup.new now f max_versions).version_control.versions =
      trimFront max_versions [VersionControl.genesis now, ⟨now, 1, f⟩] ∧
    (Backup.new now f max_versions).version_control.max_versions = max_versions ∧
    (Backup.new now f max_versions).metadata =
      { creation_date := now, fragment_count := 1, total_size := Fragment.len f,
        version_count := 1, compression_level := none, max_versions := max_versions } ∧
    (Backup.new now f max_versions).hash = Sha256.new f.toBytes :=
  ⟨rfl, rfl, rfl, rfl⟩

/-- C3. `Backup::save_to_disk` serializes `metadata.json` before assigning
the chosen compression level into `self.metadata`, so the file on disk
carries the pre-call `compression_level` (here `None` on a fresh Backup
saved at level 5) while `versions.bin` is compressed at the chosen level,
which only the in-memory metadata records afterwards. -/
theorem C3_metadata_level_stale :
    (∀ (c : Codec) (b : Backup) (lvl : Option Nat) (r : Backup × SavedFiles),
      Backup.save_to_disk c b lvl = .ok r →
        r.2.metadataJson = b.metadata ∧
        r.1.metadata.compression_level = some (lvl.getD 3)) ∧
    (Backup.save_to_disk idCodec exBackup (some 5)).toOption.map
        (fun r => (r.2.metadataJson.compression_level, r.1.metadata.compression_level)) =
      some (none, some 5) := by
  constructor
  · intro c b lvl r h
    simp only [Backup.save_to_disk] at h
    rcases hc : c.compress b.version_control.serialize (Int.ofNat (lvl.getD 3)) with _ | bytes
    · rw [hc] at h
      exact Except.noConfusion h
    · rw [hc] at h
      cases h
      exact ⟨rfl, rfl⟩
  · rfl

/-- Witness for C3: the general statement applied to the concrete save. -/
theorem C3_metadata_level_stale_witness :
    exSavedResult.2.metadataJson = exBackup.metadata ∧
    exSavedResult.1.metadata.compression_level = some ((some 5).getD 3) :=
  C3_metadata_level_stale.1 idCodec exBackup (some 5) exSavedResult rfl

theorem rollbackAux_none {n : Nat} :
    ∀ {l : List Version}, (∀ v ∈ l, v.version ≠ n) → rollbackAux n l = none
  | [], _ => rfl
  | v :: rest, h => by
    have hv : v.version ≠ n := h v (List.mem_cons_self _ _)
    simp only [rollbackAux, if_neg hv]
    rw [rollbackAux_none (fun w hw => h w (List.mem_cons_of_mem _ hw))]
    rfl

/-- C2 counterexample. Rolling `exIndex1` (whose cache holds one entry) back
to the absent version 99 returns `VersionNotFound` and leaves the Backup and
the shadow log untouched — but the cache has been cleared, so the call does
mutate state. -/
theorem C2_rollback_missing_counterexample :
    (StorageIndex.rollback 0 exIndex1 99).1 = .error .versionNotFound ∧
    (StorageIndex.rollback 0 exIndex1 99).2.backup = exIndex1.backup ∧
    (StorageIndex.rollback 0 exIndex1 99).2.version_control = exIndex1.version_control ∧
    (StorageIndex.rollback 0 exIndex1 99).2.cache.cache = [] ∧
    exIndex1.cache.cache ≠ [] := by
  refine ⟨rfl, rfl, rfl, rfl, ?_⟩
  decide

/-- C2 as amended. For every version number `n` absent from the Backup's
VersionLog, `StorageIndex::rollback(n)` returns `VersionNotFound` and leaves
the Backup, its VersionLog and the shadow VersionLog exactly as before — but
the Cache is unconditionally cleared before the missing-version check, so
the cache contents do not survive the failed call. -/
theorem C2_rollback_missing_amended (now : Nat) (st : StorageIndex) (n : Nat)
    (h : ∀ v ∈ st.backup.version_control.versions, v.version ≠ n) :
    StorageIndex.rollback now st n =
      (.error .versionNotFound, { st with cache := st.cache.clear }) := by
  unfold StorageIndex.rollback Backup.rollback VersionControl.rollback
  rw [rollbackAux_none h]

/-- Witness for C2: the amended statement applied to the concrete failed
rollback on `exIndex1`. -/
theorem C2_rollback_missing_amended_witness :
    StorageIndex.rollback 0 exIndex1 99 =
      (.error .versionNotFound, { exIndex1 with cache := exIndex1.cache.clear }) :=
  C2_rollback_missing_amended 0 exIndex1 99 (by decide)

/-- C7 counterexample. In the concrete run `insert([1])`,
`create_new_version()`, `insert([2])`, `rollback(2)` every step succeeds,
yet afterwards the Backup's latest Fragment (the one `get`/`insert`/`remove`
operate on) differs from the last element of `get_version_history()` drawn
from the shadow log: `create_new_version` appended only to the Backup's log,
so version number 2 names different Fragments in the two logs. -/
theorem C7_shadow_log_counterexample :
    (StorageIndex.insert idCodec 0 exIndex0 [1] none).1 = .ok none ∧
    (StorageIndex.create_new_version 0 exIndex1).1 = .ok () ∧
    (StorageIndex.insert idCodec 0 exIndex3 [2] none).1 = .ok none ∧
    ((StorageIndex.rollback 0 exIndex4 2).1).toOption.isSome = true ∧
    Backup.get_latest_version exIndex5.backup ≠
      (StorageIndex.get_version_history exIndex5).getLast? := by
  refine ⟨by decide, rfl, by decide, by decide, by decide⟩

theorem List.getLast?_drop_of_lt {α : Type} :
    ∀ {l : List α} {k : Nat}, k < l.length → (l.drop k).getLast? = l.getLast?
  | [], k, h => by simp at h
  | a :: tl, 0, _ => rfl
  | a :: tl, k + 1, h => by
    have hk : k < tl.length := Nat.lt_of_succ_lt_succ h
    have htl : tl ≠ [] := by
      intro hc; rw [hc] at hk; simp at hk
    rw [List.drop_succ_cons, List.getLast?_drop_of_lt hk]
    rcases tl with _ | ⟨b, tl2⟩
    · exact absurd rfl htl
    · rfl

theorem trimFront_getLast? (m : Option Nat) (l : List Version) :
    (trimFront m l).getLast? = if m = some 0 then [].getLast? else l.getLast? := by
  rcases m with _ | mm
  · simp [trimFront]
  · rcases Nat.eq_zero_or_pos mm with h0 | hpos
    · subst h0
      simp [trimFront]
    · have : ¬ (some mm = some 0) := by
        intro hc; injection hc with hc2; omega
      rw [if_neg this]
      rcases Nat.lt_or_ge (l.length - mm) l.length with hlt | hge
      · exact List.getLast?_drop_of_lt hlt
      · have hlen : l.length = 0 := by omega
        rcases l with _ | _
        · simp [trimFront]
        · simp at hlen

theorem VersionControl.add_version_latest_fragment (now : Nat) (f : Fragment)
    (vc : VersionControl) :
    ((VersionControl.add_version now f vc).get_latest_version).map (fun v => v.fragment) =
      if vc.max_versions = some 0 then none else some f := by
  unfold VersionControl.add_version VersionControl.get_latest_version
  rcases hl : vc.versions.getLast? with _ | last <;>
    · simp only [hl]
      rw [trimFront_getLast?]
      rcases hm : vc.max_versions with _ | mm
      · simp [Version.new]
      · by_cases h0 : mm = 0
        · subst h0; simp
        · have hne0 : ¬ (some mm = some (0 : Nat)) := by
            intro hc; injection hc with hc2; exact h0 hc2
          simp [hne0, Version.new]

theorem Backup.add_version_latest (now : Nat) (f : Fragment) (b : Backup) :
    Backup.get_latest_version (Backup.add_version now f b) =
      if b.version_control.max_versions = some 0 then none else some f := by
  unfold Backup.add_version Backup.get_latest_version Backup.update_hash
  rcases hl : (VersionControl.add_version now f b.version_control).get_latest_version
    with _ | v
  · simp only [hl]
    have := VersionControl.add_version_latest_fragment now f b.version_control
    rw [hl] at this
    simp at this
    simp [hl, ← this]
  · simp only [hl]
    have := VersionControl.add_version_latest_fragment now f b.version_control
    rw [hl] at this
    simpa [hl] using this

theorem VersionControl.clear_history_latest (vc : VersionControl) :
    (vc.clear_history).get_latest_version = vc.get_latest_version := by
  unfold VersionControl.clear_history VersionControl.get_latest_version
  rcases hl : vc.versions.getLast? with _ | latest
  · simp [hl]
  · simp [hl]

/-- C7 as amended. Successful `insert` and `remove` calls append the same
new Fragment to both the Backup's log and the shadow log, re-establishing
agreement of their latest Fragments (given aligned retention bounds), and
`set_max_versions` / `clear_history` preserve that agreement — but
`create_new_version` appends only to the Backup's log and `rollback` can
therefore truncate the two logs to different Fragments, so agreement holds
only for operation sequences avoiding the divergent pair. -/
theorem C7_shadow_log_amended :
    (∀ (c : Codec) (now : Nat) (st : StorageIndex) (v : List Nat) (k : Option Sha256)
      (r : Option (List Nat)) (st2 : StorageIndex), MaxAligned st →
      StorageIndex.insert c now st v k = (.ok r, st2) → ShadowAgrees st2) ∧
    (∀ (c : Codec) (now : Nat) (st : StorageIndex) (k : Sha256)
      (r : List Nat) (st2 : StorageIndex), MaxAligned st →
      StorageIndex.remove c now st k = some (.ok r, st2) → ShadowAgrees st2) ∧
    (∀ (m : Option Nat) (st : StorageIndex), ShadowAgrees st →
      ShadowAgrees (StorageIndex.set_max_versions m st)) ∧
    (∀ st : StorageIndex, ShadowAgrees st →
      ShadowAgrees (StorageIndex.clear_history st)) := by
  refine ⟨?_, ?_, ?_, ?_⟩
  · intro c now st v k r st2 hmax hins
    rcases hlv : st.backup.get_latest_version with _ | f0
    · simp only [StorageIndex.insert, hlv] at hins
      exact Except.noConfusion (congrArg Prod.fst hins)
    · simp only [StorageIndex.insert, hlv] at hins
      rcases hfi : Fragment.insert c now f0 v (k.getD (Sha256.new v)) with e | ⟨f1, prev⟩
      · rw [hfi] at hins
        exact Except.noConfusion (congrArg Prod.fst hins)
      · rw [hfi] at hins
        have hst2 : st2 =
            { backup := Backup.add_version now f1 st.backup
              cache := (CacheManager.insert now f1 st.cache).2
              version_control := VersionControl.add_version now f1 st.version_control } :=
          (congrArg Prod.snd hins).symm
        subst hst2
        unfold ShadowAgrees
        rw [Backup.add_version_latest,
          VersionControl.add_version_latest_fragment, hmax]
  · intro c now st k r st2 hmax hrem
    rcases hlv : st.backup.get_latest_version with _ | f0
    · simp only [StorageIndex.remove, hlv] at hrem
      simp at hrem
    · simp only [StorageIndex.remove, hlv] at hrem
      rcases hfr : Fragment.remove c now f0 k with ⟨f2, out⟩
      rw [hfr] at hrem
      rcases out with val | _
      · rcases val with _ | plain
        · simp at hrem
        · simp at hrem
          obtain ⟨h1, h2⟩ := hrem
          subst h2
          unfold ShadowAgrees
          rw [Backup.add_version_latest,
            VersionControl.add_version_latest_fragment, hmax]
      · simp at hrem
  · intro m st hag
    unfold ShadowAgrees at hag ⊢
    unfold StorageIndex.set_max_versions
    change Backup.get_latest_version (Backup.set_max_versions m st.backup) =
      ((VersionControl.set_max_versions m st.version_control).get_latest_version).map
        (fun v => v.fragment)
    unfold Backup.set_max_versions Backup.get_latest_version
      VersionControl.set_max_versions VersionControl.get_latest_version
    simp only [trimFront_getLast?]
    by_cases h0 : m = some 0
    · simp [h0]
    · rw [if_neg h0, if_neg h0]
      unfold Backup.get_latest_version VersionControl.get_latest_version at hag
      exact hag
  · intro st hag
    have hvc : ∀ b : Backup, (Backup.clear_history b).version_control =
        b.version_control.clear_history := by
      intro b
      unfold Backup.clear_history
      rcases hl : (b.version_control.clear_history).get_latest_version with _ | latest
      · simp [hl]
      · simp [hl]
    have hb : Backup.get_latest_version (Backup.clear_history st.backup) =
        Backup.get_latest_version st.backup := by
      unfold Backup.get_latest_version
      rw [hvc, VersionControl.clear_history_latest]
    unfold ShadowAgrees at hag ⊢
    unfold StorageIndex.clear_history
    change Backup.get_latest_version (Backup.clear_history st.backup) =
      ((st.version_control.clear_history).get_latest_version).map (fun v => v.fragment)
    rw [hb, VersionControl.clear_history_latest]
    exact hag

/-- Witness for C7: the amended insert clause applied to the concrete first
insert, establishing agreement of the two logs on `exIndex1`. -/
theorem C7_shadow_log_amended_witness : ShadowAgrees exIndex1 := by
  refine C7_shadow_log_amended.1 idCodec 0 exIndex0 [1] none none exIndex1 rfl ?_
  have h1 : (StorageIndex.insert idCodec 0 exIndex0 [1] none).1 = Except.ok none := by
    decide
  exact Prod.ext h1 rfl

theorem pairwise_version_le_getLast :
    ∀ {l : List Version},
      List.Pairwise (fun a b : Version => a.version < b.version) l →
      ∀ {last : Version}, l.getLast? = some last →
      ∀ a ∈ l, a.version ≤ last.version
  | [], _, _, hl, _, _ => by simp at hl
  | x :: tl, hp, last, hl, a, ha => by
    rcases tl with _ | ⟨y, tl2⟩
    · simp at hl
      rcases List.mem_singleton.mp ha with rfl
      simp [hl]
    · have hl2 : (y :: tl2).getLast? = some last := by
        rw [← hl]; rfl
      rcases List.mem_cons.mp ha with rfl | ha2
      · have hmem : last ∈ y :: tl2 := List.mem_of_mem_getLast? hl2
        exact Nat.le_of_lt ((List.pairwise_cons.mp hp).1 last hmem)
      · exact pairwise_version_le_getLast (List.pairwise_cons.mp hp).2 hl2 a ha2

theorem rollbackAux_some_props {n : Nat} :
    ∀ {l : List Version} {r : List Version × Fragment},
      rollbackAux n l = some r → r.1 ≠ [] ∧ r.1.Sublist l
  | [], r, h => by simp [rollbackAux] at h
  | v :: rest, r, h => by
    by_cases hv : v.version = n
    · simp only [rollbackAux, if_pos hv] at h
      cases h
      exact ⟨by simp, by simp⟩
    · simp only [rollbackAux, if_neg hv] at h
      rcases hrec : rollbackAux n rest with _ | r2
      · rw [hrec] at h; simp at h
      · rw [hrec] at h
        simp at h
        obtain ⟨h1, h2⟩ := rollbackAux_some_props hrec
        cases h
        exact ⟨by simp, List.Sublist.cons₂ v h2⟩

theorem trimFront_length (m : Nat) (l : List Version) :
    (trimFront (some m) l).length = l.length - (l.length - m) := by
  simp [trimFront]

theorem trimFront_sublist (m : Option Nat) (l : List Version) :
    (trimFront m l).Sublist l := by
  rcases m with _ | mm
  · exact List.Sublist.refl l
  · exact List.drop_sublist _ _

/-- C6. Every VersionControl reachable from `new` via `add_version`,
`rollback`, `clear_history` and `set_max_versions` (all configured bounds
being at least 1) is non-empty, strictly increasing in version number
oldest-first, and no longer than the configured bound; and `add_version`
appends a Version numbered `previous.version + 1`, trimming only from the
front of the list. -/
theorem C6_version_log_invariants :
    (∀ vc, VCReachable vc → VCInv vc) ∧
    (∀ (vc : VersionControl) (now : Nat) (f : Fragment) (last : Version),
      vc.versions.getLast? = some last →
      (VersionControl.add_version now f vc).versions =
        (vc.versions ++ [(⟨now, last.version + 1, f⟩ : Version)]).drop
          ((vc.versions.length + 1) -
            (vc.max_versions.getD (vc.versions.length + 1)))) := by
  constructor
  · intro vc hr
    induction hr with
    | base now max_versions hpos =>
      refine ⟨by simp [VersionControl.new], ?_, ?_, hpos⟩
      · simp [VersionControl.new]
      · intro m hm
        have hm2 : max_versions = some m := hm
        have := hpos m hm2
        have hlen : (VersionControl.new now max_versions).versions.length = 1 := rfl
        omega
    | add vc now f hr ih =>
      obtain ⟨hne, hpw, hbound, hpos⟩ := ih
      rcases hl : vc.versions.getLast? with _ | last
      · exact absurd (List.getLast?_eq_none_iff.mp hl) hne
      · have hnv : (VersionControl.add_version now f vc).versions =
            trimFront vc.max_versions (vc.versions ++ [(⟨now, last.version + 1, f⟩ : Version)]) := by
          unfold VersionControl.add_version
          rw [hl]
        have hmx : (VersionControl.add_version now f vc).max_versions =
            vc.max_versions := rfl
        have hpw2 : List.Pairwise (fun a b : Version => a.version < b.version)
            (vc.versions ++ [(⟨now, last.version + 1, f⟩ : Version)]) := by
          rw [List.pairwise_append]
          refine ⟨hpw, by simp, ?_⟩
          intro a ha b hb
          rcases List.mem_singleton.mp hb with rfl
          have := pairwise_version_le_getLast hpw hl a ha
          simp
          omega
        refine ⟨?_, ?_, ?_, ?_⟩
        · rw [hnv]
          rcases hm : vc.max_versions with _ | mm
          · simp [trimFront]
          · have hmm : 1 ≤ mm := hpos mm hm
            have hlen := trimFront_length mm (vc.versions ++ [(⟨now, last.version + 1, f⟩ : Version)])
            intro hc
            rw [hc] at hlen
            simp at hlen
            omega
        · rw [hnv]
          exact hpw2.sublist (trimFront_sublist _ _)
        · intro m hm
          have hm2 : vc.max_versions = some m := by rw [← hmx]; exact hm
          rw [hnv, hm2]
          have hlen := trimFront_length m (vc.versions ++ [(⟨now, last.version + 1, f⟩ : Version)])
          omega
        · rw [hmx]
          exact hpos
    | roll vc n hr ih =>
      obtain ⟨hne, hpw, hbound, hpos⟩ := ih
      rcases ha : rollbackAux n vc.versions with _ | r
      · have he : (VersionControl.rollback n vc).2 = vc := by
          unfold VersionControl.rollback
          rw [ha]
        rw [he]
        exact ⟨hne, hpw, hbound, hpos⟩
      · have he : (VersionControl.rollback n vc).2 = { vc with versions := r.1 } := by
          unfold VersionControl.rollback
          rw [ha]
        rw [he]
        obtain ⟨hne2, hsub⟩ := rollbackAux_some_props ha
        exact ⟨hne2, hpw.sublist hsub,
          fun m hm => Nat.le_trans hsub.length_le (hbound m hm), hpos⟩
    | clear vc hr ih =>
      obtain ⟨hne, hpw, hbound, hpos⟩ := ih
      rcases hl : vc.versions.getLast? with _ | latest
      · exact absurd (List.getLast?_eq_none_iff.mp hl) hne
      · have he : vc.clear_history = { vc with versions := [latest] } := by
          unfold VersionControl.clear_history
          rw [hl]
        rw [he]
        refine ⟨by simp, by simp, ?_, hpos⟩
        intro m hm
        have hm2 : vc.max_versions = some m := hm
        have := hpos m hm2
        simp
        omega
    | setMax vc max_versions hposm hr ih =>
      obtain ⟨hne, hpw, hbound, hpos⟩ := ih
      have hv : (VersionControl.set_max_versions max_versions vc).versions =
          trimFront max_versions vc.versions := rfl
      have hmx : (VersionControl.set_max_versions max_versions vc).max_versions =
          max_versions := rfl
      refine ⟨?_, ?_, ?_, ?_⟩
      · rw [hv]
        rcases hm : max_versions with _ | mm
        · simpa [trimFront]
        · have hmm : 1 ≤ mm := hposm mm hm
          have hlen2 : 1 ≤ vc.versions.length := by
            rcases hvv : vc.versions with _ | _
            · exact absurd hvv hne
            · simp
          have hlen := trimFront_length mm vc.versions
          intro hc
          rw [hc] at hlen
          simp at hlen
          omega
      · rw [hv]
        exact hpw.sublist (trimFront_sublist _ _)
      · intro m hm
        have hm2 : max_versions = some m := by rw [← hmx]; exact hm
        rw [hv, hm2]
        have hlen := trimFront_length m vc.versions
        omega
      · rw [hmx]
        exact hposm
  · intro vc now f last hl
    unfold VersionControl.add_version
    rw [hl]
    rcases hm : vc.max_versions with _ | mm
    · simp [trimFront, hm]
    · simp [trimFront, hm]

/-- Witness for C6: the invariant holds at a concretely reached state and
the append-then-trim equation holds at a concrete input. -/
theorem C6_version_log_invariants_witness :
    VCInv (VersionControl.add_version 1 (Fragment.new "zstd" 3 none 0)
      (VersionControl.new 0 (some 3))) ∧
    (VersionControl.add_version 1 (Fragment.new "zstd" 3 none 0)
        (VersionControl.new 0 (some 3))).versions =
      ((VersionControl.new 0 (some 3)).versions ++
          [(⟨1, (VersionControl.genesis 0).version + 1, Fragment.new "zstd" 3 none 0⟩ : Version)]).drop
        (((VersionControl.new 0 (some 3)).versions.length + 1) -
          (((VersionControl.new 0 (some 3)).max_versions).getD
            ((VersionControl.new 0 (some 3)).versions.length + 1))) :=
  ⟨C6_version_log_invariants.1 _
      (VCReachable.add _ 1 _ (VCReachable.base 0 (some 3) (fun k hk => by
        injection hk with hk2; omega))),
    C6_version_log_invariants.2 (VersionControl.new 0 (some 3)) 1
      (Fragment.new "zstd" 3 none 0) (VersionControl.genesis 0) rfl⟩

theorem lruFold_some_spec :
    ∀ (l : CacheMap) (q : Sha256 × CacheEntry),
      ∃ p, lruFold (some q) l = some p ∧ (p = q ∨ p ∈ l) ∧
        p.2.last_accessed ≤ q.2.last_accessed ∧
        ∀ x ∈ l, p.2.last_accessed ≤ x.2.last_accessed
  | [], q => ⟨q, rfl, Or.inl rfl, Nat.le_refl _, by simp⟩
  | e :: rest, q => by
    by_cases h : e.2.last_accessed < q.2.last_accessed
    · obtain ⟨p, h1, h2, h3, h4⟩ := lruFold_some_spec rest e
      refine ⟨p, ?_, ?_, ?_, ?_⟩
      · simpa [lruFold, h] using h1
      · rcases h2 with rfl | hm
        · exact Or.inr (List.mem_cons_self _ _)
        · exact Or.inr (List.mem_cons_of_mem _ hm)
      · exact Nat.le_trans h3 (Nat.le_of_lt h)
      · intro x hx
        rcases List.mem_cons.mp hx with rfl | hx2
        · exact h3
        · exact h4 x hx2
    · obtain ⟨p, h1, h2, h3, h4⟩ := lruFold_some_spec rest q
      refine ⟨p, ?_, ?_, ?_, ?_⟩
      · simpa [lruFold, h] using h1
      · rcases h2 with rfl | hm
        · exact Or.inl rfl
        · exact Or.inr (List.mem_cons_of_mem _ hm)
      · exact h3
      · intro x hx
        rcases List.mem_cons.mp hx with rfl | hx2
        · exact Nat.le_trans h3 (Nat.not_lt.mp h)
        · exact h4 x hx2

theorem lruKey_spec {l : CacheMap} (h : l ≠ []) :
    ∃ kmin emin, lruKey l = some kmin ∧ (kmin, emin) ∈ l ∧
      ∀ x ∈ l, emin.last_accessed ≤ x.2.last_accessed := by
  rcases l with _ | ⟨e, rest⟩
  · exact absurd rfl h
  · obtain ⟨p, h1, h2, h3, h4⟩ := lruFold_some_spec rest e
    refine ⟨p.1, p.2, ?_, ?_, ?_⟩
    · unfold lruKey
      have hstep : lruFold none (e :: rest) = lruFold (some e) rest := rfl
      rw [hstep, h1]
      rfl
    · rcases h2 with rfl | hm
      · exact List.mem_cons_self _ _
      · exact List.mem_cons_of_mem _ hm
    · intro x hx
      rcases List.mem_cons.mp hx with rfl | hx2
      · exact h3
      · exact h4 x hx2

theorem CacheMap.lookup_store (k : Sha256) (v : CacheEntry) :
    ∀ l : CacheMap, CacheMap.lookup k (CacheMap.store k v l) = some v
  | [] => by simp [CacheMap.store, CacheMap.lookup]
  | e :: rest => by
    by_cases hk : k = e.1
    · simp [CacheMap.store, CacheMap.lookup, hk]
    · simpa [CacheMap.store, CacheMap.lookup, hk] using CacheMap.lookup_store k v rest

/-- C8. A successful `CacheManager::insert(fragment)` with `|entries| ≥
capacity` first evicts exactly one entry chosen by the configured strategy
— under LRU an entry with minimal `last_accessed`, under FIFO the first
entry of the iteration order — and then places the new entry; with
`|entries| < capacity` nothing is evicted; in either successful case the
new entry sits in the cache under the key `SHA-256(fragment.to_bytes())`. -/
theorem C8_cache_insert_eviction (now : Nat) (f : Fragment) (cm : CacheManager) :
    (cm.cache.length ≥ cm.config.max_size → cm.cache ≠ [] →
      ∃ kevict eevict, (kevict, eevict) ∈ cm.cache ∧
        (cm.config.eviction_strategy = EvictionStrategy.leastRecentlyUsed →
          ∀ x ∈ cm.cache, eevict.last_accessed ≤ x.2.last_accessed) ∧
        (cm.config.eviction_strategy = EvictionStrategy.firstInFirstOut →
          cm.cache.head? = some (kevict, eevict)) ∧
        CacheManager.insert now f cm =
          (.ok (), cm.withMap (CacheMap.store (Sha256.new f.toBytes) ⟨f, now⟩
            (CacheMap.erase kevict cm.cache)))) ∧
    (cm.cache.length < cm.config.max_size →
      CacheManager.insert now f cm =
        (.ok (), cm.withMap
          (CacheMap.store (Sha256.new f.toBytes) ⟨f, now⟩ cm.cache))) ∧
    ((CacheManager.insert now f cm).1 = .ok () →
      CacheMap.lookup (Sha256.new f.toBytes) (CacheManager.insert now f cm).2.cache =
        some ⟨f, now⟩) := by
  have hins : ∀ l : CacheMap, CacheMap.lookup (Sha256.new f.toBytes)
      (CacheMap.store (Sha256.new f.toBytes) (⟨f, now⟩ : CacheEntry) l) =
        some ⟨f, now⟩ := CacheMap.lookup_store _ _
  have hdisp : cm.evict = cm.evict_lru ∨ cm.evict = cm.evict_fifo := by
    unfold CacheManager.evict
    rcases cm.config.eviction_strategy
    · exact Or.inl rfl
    · exact Or.inr rfl
  by_cases hcap : cm.cache.length ≥ cm.config.max_size
  · rcases hc : cm.cache with _ | ⟨e, rest⟩
    · have hevict : cm.evict = .error .insertionError := by
        rcases hdisp with h1 | h1
        · rw [h1]
          unfold CacheManager.evict_lru
          rw [show lruKey cm.cache = none from by rw [hc]; rfl]
        · rw [h1]
          unfold CacheManager.evict_fifo
          rw [hc]
      have hfail : CacheManager.insert now f cm = (.error .insertionError, cm) := by
        unfold CacheManager.insert
        rw [if_pos hcap, hevict]
      refine ⟨?_, ?_, ?_⟩
      · intro _ hne2
        exact absurd rfl hne2
      · intro hlt
        rw [hc] at hcap
        simp at hcap hlt
        omega
      · intro hok
        rw [hfail] at hok
        exact Except.noConfusion hok
    · rw [← hc]
      rcases hs : cm.config.eviction_strategy with _ | _
      · have hne : cm.cache ≠ [] := by rw [hc]; simp
        obtain ⟨kmin, emin, hlru, hmem, hmin⟩ := lruKey_spec hne
        have hev : cm.evict = cm.evict_lru := by
          unfold CacheManager.evict
          rw [hs]
        have hevict : cm.evict = .ok (cm.withMap (CacheMap.erase kmin cm.cache)) := by
          rw [hev]
          unfold CacheManager.evict_lru
          rw [hlru]
          rfl
        have hgood : CacheManager.insert now f cm =
            (.ok (), cm.withMap (CacheMap.store (Sha256.new f.toBytes) ⟨f, now⟩
              (CacheMap.erase kmin cm.cache))) := by
          unfold CacheManager.insert
          rw [if_pos hcap, hevict]
          rfl
        refine ⟨?_, ?_, ?_⟩
        · intro _ _
          exact ⟨kmin, emin, hmem, fun _ => hmin,
            fun hbad => EvictionStrategy.noConfusion hbad, hgood⟩
        · intro hlt
          omega
        · intro _
          rw [hgood]
          exact hins _
      · have hmem : (e.1, e.2) ∈ cm.cache := by
          rw [hc]
          exact List.mem_cons_self _ _
        have hhead : cm.cache.head? = some (e.1, e.2) := by
          rw [hc]
          rfl
        have hev : cm.evict = cm.evict_fifo := by
          unfold CacheManager.evict
          rw [hs]
        have hevict : cm.evict = .ok (cm.withMap (CacheMap.erase e.1 cm.cache)) := by
          rw [hev]
          unfold CacheManager.evict_fifo
          rw [hc]
          rfl
        have hgood : CacheManager.insert now f cm =
            (.ok (), cm.withMap (CacheMap.store (Sha256.new f.toBytes) ⟨f, now⟩
              (CacheMap.erase e.1 cm.cache))) := by
          unfold CacheManager.insert
          rw [if_pos hcap, hevict]
          rfl
        refine ⟨?_, ?_, ?_⟩
        · intro _ _
          exact ⟨e.1, e.2, hmem,
            fun hbad => EvictionStrategy.noConfusion hbad, fun _ => hhead, hgood⟩
        · intro hlt
          omega
        · intro _
          rw [hgood]
          exact hins _
  · have hgood : CacheManager.insert now f cm =
        (.ok (), cm.withMap
          (CacheMap.store (Sha256.new f.toBytes) ⟨f, now⟩ cm.cache)) := by
      unfold CacheManager.insert
      rw [if_neg hcap]
      rfl
    refine ⟨?_, ?_, ?_⟩
    · intro hge _
      exact absurd hge hcap
    · intro _
      exact hgood
    · intro _
      rw [hgood]
      exact hins _

/-- Witness for C8: the at-capacity clause applied to the concrete cache
under each strategy — LRU on `exCache`, FIFO on `exCacheFifo`. -/
theorem C8_cache_insert_eviction_witness :
    (∃ kevict eevict, (kevict, eevict) ∈ exCache.cache ∧
      (exCache.config.eviction_strategy = EvictionStrategy.leastRecentlyUsed →
        ∀ x ∈ exCache.cache, eevict.last_accessed ≤ x.2.last_accessed) ∧
      (exCache.config.eviction_strategy = EvictionStrategy.firstInFirstOut →
        exCache.cache.head? = some (kevict, eevict)) ∧
      CacheManager.insert 9 (Fragment.new "zstd" 3 none 2) exCache =
        (.ok (), exCache.withMap
          (CacheMap.store (Sha256.new (Fragment.new "zstd" 3 none 2).toBytes)
            ⟨Fragment.new "zstd" 3 none 2, 9⟩
            (CacheMap.erase kevict exCache.cache)))) ∧
    (∃ kevict eevict, (kevict, eevict) ∈ exCacheFifo.cache ∧
      (exCacheFifo.config.eviction_strategy = EvictionStrategy.leastRecentlyUsed →
        ∀ x ∈ exCacheFifo.cache, eevict.last_accessed ≤ x.2.last_accessed) ∧
      (exCacheFifo.config.eviction_strategy = EvictionStrategy.firstInFirstOut →
        exCacheFifo.cache.head? = some (kevict, eevict)) ∧
      CacheManager.insert 9 (Fragment.new "zstd" 3 none 2) exCacheFifo =
        (.ok (), exCacheFifo.withMap
          (CacheMap.store (Sha256.new (Fragment.new "zstd" 3 none 2).toBytes)
            ⟨Fragment.new "zstd" 3 none 2, 9⟩
            (CacheMap.erase kevict exCacheFifo.cache)))) :=
  ⟨(C8_cache_insert_eviction 9 (Fragment.new "zstd" 3 none 2) exCache).1
      (by decide) (by decide),
    (C8_cache_insert_eviction 9 (Fragment.new "zstd" 3 none 2) exCacheFifo).1
      (by decide) (by decide)⟩

/-- C1 counterexample. The identity codec satisfies both round-trip laws;
after the successful `insert([1], None)` the cache holds the new Fragment
under the content hash of its serialization, and a second successful
`insert([2], Some(exStaleKey))` with exactly that digest as the entry key
makes the subsequent `get(exStaleKey)` hit the stale cached Fragment — which
does not contain the key — and return `KeyNotFound` instead of `[2]`. -/
theorem C1_insert_get_counterexample :
    Codec.RoundTrip idCodec ∧ Codec.RoundTripDict idCodec ∧
    (StorageIndex.insert idCodec 0 exIndex1 [2] (some exStaleKey)).1 =
      .ok none ∧
    (StorageIndex.get idCodec 0 exIndex2 exStaleKey).1 =
      .error .keyNotFound := by
  refine ⟨fun v lvl => ⟨v, rfl, rfl⟩, fun v lvl d => ⟨v, rfl, rfl⟩, by decide, by decide⟩

/-- C1 as amended. Assuming the codec round-trip laws, after a successful
`Index::insert(v, Some(k))` on a state whose retention bound is not
`Some(0)`, `Index::get(k)` returns `v` whenever the cache probe with the
entry key `k` misses (the latest Fragment is then fetched from the Backup);
a probe that hits a stale cached Fragment can return `KeyNotFound` instead. -/
theorem C1_insert_get_amended (c : Codec) (hrt : c.RoundTrip)
    (hrtd : c.RoundTripDict) (st : StorageIndex) (v : List Nat) (k : Sha256)
    (now now2 : Nat) (hmax : st.backup.version_control.max_versions ≠ some 0)
    (p : Option (List Nat)) (st2 : StorageIndex)
    (hins : StorageIndex.insert c now st v (some k) = (.ok p, st2))
    (hmiss : CacheMap.lookup k st2.cache.cache = none) :
    (StorageIndex.get c now2 st2 k).1 = .ok v := by
  rcases hlv : st.backup.get_latest_version with _ | f0
  · simp only [StorageIndex.insert, hlv] at hins
    exact absurd (congrArg Prod.fst hins) (by simp)
  · simp only [StorageIndex.insert, hlv, Option.getD_some] at hins
    rcases hcv : compressOf c f0.metadata v with _ | cv
    · rw [show Fragment.insert c now f0 v k = .error .compressionError from by
        simp [Fragment.insert, hcv]] at hins
      exact absurd (congrArg Prod.fst hins) (by simp)
    · have hfi : Fragment.insert c now f0 v k =
          .ok (Fragment.refresh now f0 (Table.insert k cv f0.table).1,
            (Table.insert k cv f0.table).2) := by
        simp [Fragment.insert, hcv]
      rw [hfi] at hins
      have hst2 : st2 =
          { backup := Backup.add_version now
              (Fragment.refresh now f0 (Table.insert k cv f0.table).1) st.backup
            cache := (CacheManager.insert now
              (Fragment.refresh now f0 (Table.insert k cv f0.table).1) st.cache).2
            version_control := VersionControl.add_version now
              (Fragment.refresh now f0 (Table.insert k cv f0.table).1)
              st.version_control } := (congrArg Prod.snd hins).symm
      subst hst2
      have hdec : decompOf c
          (Fragment.refresh now f0 (Table.insert k cv f0.table).1).metadata cv =
            some v := by
        have hdict : (Fragment.refresh now f0
            (Table.insert k cv f0.table).1).metadata.compression_dict =
              f0.metadata.compression_dict := rfl
        unfold decompOf
        rw [hdict]
        rcases hd : f0.metadata.compression_dict with _ | d
        · simp only [compressOf, hd] at hcv
          simp only [hd]
          obtain ⟨cv2, hcomp, hdecomp⟩ := hrt v f0.metadata.compression_level
          rw [hcomp] at hcv
          injection hcv with hcv2
          rw [← hcv2]
          exact hdecomp
        · simp only [compressOf, hd] at hcv
          simp only [hd]
          obtain ⟨cv2, hcomp, hdecomp⟩ := hrtd v f0.metadata.compression_level d
          rw [hcomp] at hcv
          injection hcv with hcv2
          rw [← hcv2]
          exact hdecomp
      have hfg : Fragment.get c
          (Fragment.refresh now f0 (Table.insert k cv f0.table).1) k =
            .ok (some v) := by
        have htab : Table.get k
            (Fragment.refresh now f0 (Table.insert k cv f0.table).1).table =
              some cv := Table.get_insert_self f0.table
        simp only [Fragment.get, htab, hdec]
      have hcget : CacheManager.get now2 k (CacheManager.insert now
          (Fragment.refresh now f0 (Table.insert k cv f0.table).1) st.cache).2 =
            (none, (CacheManager.insert now
              (Fragment.refresh now f0 (Table.insert k cv f0.table).1) st.cache).2) := by
        unfold CacheManager.get
        rw [hmiss]
      have hlat : Backup.get_latest_version (Backup.add_version now
          (Fragment.refresh now f0 (Table.insert k cv f0.table).1) st.backup) =
            some (Fragment.refresh now f0 (Table.insert k cv f0.table).1) := by
        rw [Backup.add_version_latest, if_neg hmax]
      simp only [StorageIndex.get, hcget, hlat, hfg]

/-- Witness for C1 (amended): on the concrete state the cache probe with
`exKey7` misses and `get` returns the inserted value. -/
theorem C1_insert_get_amended_witness :
    (StorageIndex.get idCodec 0 exIndex6 exKey7).1 = .ok [1] := by
  refine C1_insert_get_amended idCodec (fun v lvl => ⟨v, rfl, rfl⟩)
    (fun v lvl d => ⟨v, rfl, rfl⟩) exIndex0 [1] exKey7 0 0 (by decide) none exIndex6
    ?_ (by decide)
  have h1 : (StorageIndex.insert idCodec 0 exIndex0 [1] (some exKey7)).1 =
      Except.ok none := by decide
  exact Prod.ext h1 rfl
